import Mathlib

set_option maxHeartbeats 1000000

/-!
Formal model of the core logic of `rw_rsc_quickstart` (`src/main.rs`):

* manifest rewriting (`update_package_jsons`): walk a list of `package.json`
  files, parse each as JSON, replace the value of every `dependencies` /
  `devDependencies` entry whose key starts with `"@redwoodjs/"` by the canary
  version string, and serialize the document back with
  `serde_json::to_string_pretty` followed by a single `\n`;
* toolchain resolution (`check_yarn_installation`): classify each candidate
  `yarn` on the search path as corepack-managed or not and accept / reject the
  environment;
* the Node version gate (`check_node`): `semver_rs::satisfies(v, ">=20")`.

Effectful pieces (filesystem reads, `which`, subprocesses) are modelled by
passing their results in explicitly: the list of canonicalized candidate
paths, the trimmed stdout of `node --version`, and the list of
`(path, contents)` pairs produced by the glob.  A `panic!`/`expect` abort is
modelled as `Option.none`.
-/

/-- Characters `{` and `}` used when building and parsing JSON text. -/
def lbrace : Char := Char.ofNat 123

/-- The closing brace character. -/
def rbrace : Char := Char.ofNat 125

mutual

/-- JSON documents as manipulated through `serde_json::Value`.
Modelled from the spec: the repository's `Cargo.toml` (which fixes the
`serde_json` map flavor) is not part of the sources, so per the spec's
"stable key ordering as encountered" an object keeps its fields in the
order they were encountered.  Numbers are modelled as integers; floating
point numbers are outside the model (no manifest field the tool touches
holds one). -/
inductive Json where
| null : Json
| bool : Bool → Json
| num : Int → Json
| str : String → Json
| arr : JsonArr → Json
| obj : JsonObj → Json

/-- The elements of a JSON array (`Vec<Value>`), as a bespoke list so the
mutual recursion with `Json` stays structural. -/
inductive JsonArr where
| nil : JsonArr
| cons : Json → JsonArr → JsonArr

/-- The fields of a JSON object (`Map<String, Value>`), in encounter order. -/
inductive JsonObj where
| nil : JsonObj
| cons : String → Json → JsonObj → JsonObj

end

/-- Lookup of a key in an object's field list (first match), modelling
`Map::get`. -/
def JsonObj.find : JsonObj → String → Option Json
| .nil, _ => none
| .cons k v t, key => if k = key then some v else JsonObj.find t key

/-- Replace the value stored under a key (first match), leaving every other
field and the field order unchanged; models an in-place `map[key] = v`. -/
def JsonObj.setVal : JsonObj → String → Json → JsonObj
| .nil, _, _ => .nil
| .cons k v t, key, nv =>
  if k = key then .cons k nv t else .cons k v (JsonObj.setVal t key nv)

/-- The keys of an object, in order. -/
def JsonObj.keys : JsonObj → List String
| .nil => []
| .cons k _ t => k :: JsonObj.keys t

/-- `Value::get`: field lookup on an object, `None` on any other value. -/
def Json.get : Json → String → Option Json
| .obj fs, key => fs.find key
| _, _ => none

/-- Store a value under an existing key of an object; other values are
returned unchanged (the code only indexes after a successful `get`). -/
def Json.set : Json → String → Json → Json
| .obj fs, key, v => .obj (fs.setVal key v)
| j, _, _ => j

/-- Whether a value is a JSON object (`Value::is_object` /
successful `as_object_mut`). -/
def Json.isObj : Json → Bool
| .obj _ => true
| _ => false

/-- Rust's `str::starts_with`. -/
def strStartsWith (s p : String) : Bool := p.data.isPrefixOf s.data

/-- The hard-coded dependency-name prefix `"@redwoodjs/"` from
`update_package_jsons`. -/
def rwScope : String := "@redwoodjs/"

/-- The per-submapping rewrite loop of `update_package_jsons`
(`src/main.rs:149-153` and `159-163`): every entry whose key starts with
`"@redwoodjs/"` gets the canary version string as its new value; every other
entry, and all keys, are untouched. -/
def rewriteDeps (canary : String) : JsonObj → JsonObj
| .nil => .nil
| .cons name v t =>
  .cons name (if strStartsWith name rwScope then Json.str canary else v)
    (rewriteDeps canary t)

/-- One `if json.get(key).is_some() { ... }` block of `update_package_jsons`:
absent key leaves the document alone; a present object value is rewritten
entry-wise; a present non-object value hits `as_object_mut().unwrap()`, a
panic, modelled by `none`. -/
def updateKey (canary key : String) (j : Json) : Option Json :=
  match Json.get j key with
  | none => some j
  | some (.obj deps) => some (Json.set j key (.obj (rewriteDeps canary deps)))
  | some _ => none

/-- The in-memory mutation `update_package_jsons` performs on one parsed
manifest: the `dependencies` block followed by the `devDependencies` block. -/
def updateManifest (canary : String) (j : Json) : Option Json :=
  (updateKey canary "dependencies" j).bind (updateKey canary "devDependencies")

/-- The key is absent, or present with an object value: exactly the
documents on which `update_package_jsons` does not panic at this key. -/
def objOrAbsent (j : Json) (key : String) : Bool :=
  match Json.get j key with
  | none => true
  | some v => v.isObj

/-- The entry stored under `name` inside the `sub` submapping of a manifest,
if both exist (`none` when the submapping is absent or not an object). -/
def manifestEntry (j : Json) (sub name : String) : Option Json :=
  match Json.get j sub with
  | some (.obj fs) => fs.find name
  | _ => none

/-- The keys of the `sub` submapping of a manifest, in order, when it is
present as an object. -/
def subKeys (j : Json) (sub : String) : Option (List String) :=
  match Json.get j sub with
  | some (.obj fs) => some fs.keys
  | _ => none

/-- The top-level keys of a manifest document, in order. -/
def topKeys (j : Json) : Option (List String) :=
  match j with
  | .obj fs => some fs.keys
  | _ => none

/-! ## Toolchain resolution (`check_yarn_installation`) -/

/-- Rust's `str::contains` on character lists: `needle` occurs contiguously
inside the haystack. -/
def listContains (needle : List Char) : List Char → Bool
| [] => needle.isEmpty
| c :: cs => needle.isPrefixOf (c :: cs) || listContains needle cs

/-- The provenance classification of `src/main.rs:210` and `232`: a
canonical path is corepack-managed when it contains the substring
`"/corepack/"` or `"\corepack\"`. -/
def isCorepackPath (s : String) : Bool :=
  listContains "/corepack/".data s.data || listContains "\\corepack\\".data s.data

/-- The four ways `check_yarn_installation` can end: return normally (`ok`),
or exit the process after one of its three diagnostics. -/
inductive YarnCheck where
| notFound : YarnCheck
| ok : YarnCheck
| ambiguousInstallation : YarnCheck
| multipleInstallations : YarnCheck
deriving DecidableEq

/-- `check_yarn_installation` (`src/main.rs:186-258`) over the canonicalized
candidate paths in search-path order (`which::which` yields the head,
`which::which_all` the whole list).  No candidate: `NotFound` exit.  First
candidate corepack-managed: immediate success.  Otherwise every candidate is
canonicalized and classified; any managed candidate means the ambiguous-
installation exit, and failing that, more than one candidate means the
multiple-installations exit; a single unmanaged candidate falls through and
the function returns normally. -/
def check_yarn_installation (yarns : List String) : YarnCheck :=
  match yarns with
  | [] => .notFound
  | first :: _ =>
    if isCorepackPath first then .ok
    else
      let count := yarns.length
      let hasCorepack := yarns.any isCorepackPath
      if hasCorepack then .ambiguousInstallation
      else if count > 1 then .multipleInstallations
      else .ok

/-! ## Version gate (`check_node`) -/

/-- Decimal value of one ASCII digit. -/
def digitVal (c : Char) : Nat := c.toNat - 48

/-- Value of a most-significant-first ASCII digit string. -/
def charsToNat (ds : List Char) : Nat :=
  ds.foldl (fun a c => a * 10 + digitVal c) 0

/-- Parse one semver numeric identifier: a nonempty digit run with no
leading zero; returns the value and the unconsumed input. -/
def parseNumId (cs : List Char) : Option (Nat × List Char) :=
  let ds := cs.takeWhile Char.isDigit
  let rest := cs.dropWhile Char.isDigit
  if ds.isEmpty then none
  else if 1 < ds.length && ds.head? == some '0' then none
  else some (charsToNat ds, rest)

/-- A character allowed in a semver prerelease / build identifier. -/
def isIdentChar (c : Char) : Bool := c.isAlphanum || c = '-'

/-- A valid prerelease identifier: nonempty, identifier characters only, and
no leading zero if fully numeric. -/
def validPreId (p : List Char) : Bool :=
  !p.isEmpty && p.all isIdentChar &&
    (if p.all Char.isDigit then p.length == 1 || !(p.head? == some '0') else true)

/-- A valid build suffix: dot-separated nonempty identifier segments. -/
def validBuild (b : List Char) : Bool :=
  (b.splitOn '.').all (fun p => !p.isEmpty && p.all isIdentChar)

/-- A parsed semver version; the build suffix is dropped, as it never takes
part in comparison. -/
structure Semver where
  major : Nat
  minor : Nat
  patch : Nat
  prerelease : List String

/-- Model of the version parsing inside `semver_rs`: an optional leading
`v`, then `major.minor.patch` numeric identifiers with no leading zeros,
then an optional `-prerelease` and an optional `+build`. -/
def parseSemver (s : String) : Option Semver :=
  let cs := s.data
  let cs := match cs with
    | 'v' :: t => t
    | other => other
  match parseNumId cs with
  | none => none
  | some (maj, r1) =>
    match r1 with
    | '.' :: r1a =>
      match parseNumId r1a with
      | none => none
      | some (mino, r2) =>
        match r2 with
        | '.' :: r2a =>
          match parseNumId r2a with
          | none => none
          | some (pat, r3) =>
            match r3 with
            | [] => some ⟨maj, mino, pat, []⟩
            | '-' :: pr =>
              let pre := pr.takeWhile (fun c => c != '+')
              let rest := pr.dropWhile (fun c => c != '+')
              let preParts := pre.splitOn '.'
              if !(preParts.all validPreId) then none
              else
                match rest with
                | [] => some ⟨maj, mino, pat, preParts.map (fun p => String.mk p)⟩
                | '+' :: b =>
                  if validBuild b then
                    some ⟨maj, mino, pat, preParts.map (fun p => String.mk p)⟩
                  else none
                | _ => none
            | '+' :: b => if validBuild b then some ⟨maj, mino, pat, []⟩ else none
            | _ => none
        | _ => none
    | _ => none

/-- Model of `semver_rs::satisfies(version, ">=m", None)`: the range `">=m"`
normalizes to the comparator `>=m.0.0`; a version with a prerelease never
satisfies it (the comparator carries no prerelease), otherwise the triple is
compared lexicographically against `(m, 0, 0)`.  `none` models the `Err`
that `satisfies` returns on an unparseable version string. -/
def satisfies_ge (s : String) (m : Nat) : Option Bool :=
  match parseSemver s with
  | none => none
  | some v =>
    some (v.prerelease.isEmpty &&
      (m < v.major || (v.major == m && (0 < v.minor || (v.minor == 0 && true)))))

/-- The three ways `check_node` (`src/main.rs:171-184`) can end: return
normally, exit after the too-old diagnostic, or panic in the `unwrap` when
the version string fails to parse. -/
inductive NodeCheck where
| ok : NodeCheck
| versionTooOld : NodeCheck
| panicked : NodeCheck
deriving DecidableEq

/-- A trim-relevant whitespace character. -/
def isTrimWs (c : Char) : Bool := c = ' ' || c = '\t' || c = '\n' || c = '\r'

/-- Rust's `str::trim` restricted to ASCII whitespace. -/
def trimChars (l : List Char) : List Char :=
  ((l.dropWhile isTrimWs).reverse.dropWhile isTrimWs).reverse

/-- `check_node` over the captured stdout of `node --version`: trim it, then
`satisfies(version, ">=20").unwrap()`; `false` exits the process. -/
def check_node (stdout : String) : NodeCheck :=
  let version := String.mk (trimChars stdout.data)
  match satisfies_ge version 20 with
  | none => .panicked
  | some true => .ok
  | some false => .versionTooOld

/-! ## Serialization (`serde_json::to_string_pretty`) -/

/-- Decimal digits of a natural number, most significant first
(`itoa`-style, `"0"` for zero). -/
def natChars (n : Nat) : List Char :=
  if n = 0 then ['0'] else (Nat.digits 10 n).reverse.map (fun d => Char.ofNat (48 + d))

/-- Decimal rendering of an integer. -/
def intChars (n : Int) : List Char :=
  if n < 0 then '-' :: natChars n.natAbs else natChars n.toNat

/-- The pretty printer's indentation: two spaces per nesting level. -/
def indentChars (n : Nat) : List Char := List.replicate (2 * n) ' '

/-- One lowercase hexadecimal digit. -/
def hexDigitChar (n : Nat) : Char :=
  if n < 10 then Char.ofNat (48 + n) else Char.ofNat (87 + n)

/-- `serde_json`'s string escaping for one character: `"` and `\` get a
backslash, the five named control characters their short forms, any other
control character a `\u00XX` escape, and everything else is emitted raw. -/
def escapeChar (c : Char) : List Char :=
  if c = '"' then ['\\', '"']
  else if c = '\\' then ['\\', '\\']
  else if c = '\x08' then ['\\', 'b']
  else if c = '\t' then ['\\', 't']
  else if c = '\n' then ['\\', 'n']
  else if c = '\x0c' then ['\\', 'f']
  else if c = '\r' then ['\\', 'r']
  else if c.toNat < 32 then
    ['\\', 'u', '0', '0', hexDigitChar (c.toNat / 16), hexDigitChar (c.toNat % 16)]
  else [c]

/-- Escape a whole string body. -/
def escapeList : List Char → List Char
| [] => []
| c :: cs => escapeChar c ++ escapeList cs

mutual

/-- `serde_json::to_string_pretty` at a given nesting level: two-space
indentation, `": "` after object keys, one element or field per line, and
compact `[]` / `{}` for empty containers. -/
def printJson : Json → Nat → List Char
| .null, _ => ['n', 'u', 'l', 'l']
| .bool true, _ => ['t', 'r', 'u', 'e']
| .bool false, _ => ['f', 'a', 'l', 's', 'e']
| .num n, _ => intChars n
| .str s, _ => '"' :: escapeList s.data ++ ['"']
| .arr .nil, _ => ['[', ']']
| .arr (.cons h t), ind =>
  '[' :: printItems (JsonArr.cons h t) (ind + 1) ++ '\n' :: indentChars ind ++ [']']
| .obj .nil, _ => [lbrace, rbrace]
| .obj (.cons k v t), ind =>
  lbrace :: printFields (JsonObj.cons k v t) (ind + 1) ++ '\n' :: indentChars ind ++ [rbrace]

/-- The element lines of a nonempty array: each element on its own line at
the current level, separated by commas. -/
def printItems : JsonArr → Nat → List Char
| .nil, _ => []
| .cons h t, ind =>
  '\n' :: indentChars ind ++ printJson h ind ++
    (match t with
     | .nil => []
     | .cons _ _ => [',']) ++ printItems t ind

/-- The field lines of a nonempty object: `"key": value`, one per line,
separated by commas. -/
def printFields : JsonObj → Nat → List Char
| .nil, _ => []
| .cons k v t, ind =>
  '\n' :: indentChars ind ++ '"' :: escapeList k.data ++ '"' :: ':' :: ' ' ::
    printJson v ind ++
    (match t with
     | .nil => []
     | .cons _ _ _ => [',']) ++ printFields t ind

end

/-- The bytes `update_package_jsons` writes back for one manifest:
`format!("{pretty_json}\n")`. -/
def serializeFile (j : Json) : String := String.mk (printJson j 0 ++ ['\n'])

/-! ## Parsing (`serde_json::from_str`) -/

/-- JSON insignificant whitespace. -/
def isJsonWs (c : Char) : Bool := c = ' ' || c = '\t' || c = '\n' || c = '\r'

/-- Drop leading JSON whitespace. -/
def skipWs : List Char → List Char
| [] => []
| c :: cs => if isJsonWs c then skipWs cs else c :: cs

/-- Value of a hexadecimal digit. -/
def hexVal (c : Char) : Option Nat :=
  if '0' ≤ c && c ≤ '9' then some (c.toNat - 48)
  else if 'a' ≤ c && c ≤ 'f' then some (c.toNat - 87)
  else if 'A' ≤ c && c ≤ 'F' then some (c.toNat - 55)
  else none

/-- The single-character escapes of JSON. -/
def unescapeChar (c : Char) : Option Char :=
  if c = '"' then some '"'
  else if c = '\\' then some '\\'
  else if c = '/' then some '/'
  else if c = 'b' then some '\x08'
  else if c = 'f' then some '\x0c'
  else if c = 'n' then some '\n'
  else if c = 'r' then some '\r'
  else if c = 't' then some '\t'
  else none

/-- Parse a string body after the opening quote, up to and over the closing
quote; unescapes as it goes.  A `\uXXXX` escape becomes the single scalar it
denotes (surrogate pairs are outside the model, as are the invalid documents
containing lone surrogates).  Raw control characters are rejected.  Fuel is
consumed once per parsed character, so the input length is always enough. -/
def parseStringBody : Nat → List Char → Option (List Char × List Char)
| 0, _ => none
| _ + 1, [] => none
| f + 1, c :: cs =>
  if c = '"' then some ([], cs)
  else if c = '\\' then
    match cs with
    | [] => none
    | e :: cs1 =>
      if e = 'u' then
        match cs1 with
        | h1 :: h2 :: h3 :: h4 :: cs2 =>
          match hexVal h1, hexVal h2, hexVal h3, hexVal h4 with
          | some a, some b, some c3, some d =>
            (parseStringBody f cs2).map
              (fun p => (Char.ofNat (((a * 16 + b) * 16 + c3) * 16 + d) :: p.1, p.2))
          | _, _, _, _ => none
        | _ => none
      else
        match unescapeChar e with
        | some u => (parseStringBody f cs1).map (fun p => (u :: p.1, p.2))
        | none => none
  else if c.toNat < 32 then none
  else (parseStringBody f cs).map (fun p => (c :: p.1, p.2))

/-- Parse an unsigned JSON integer: a nonempty digit run with no redundant
leading zero.  A following `.`, `e` or `E` would start a float, which is
outside the integer-only number model, and is rejected. -/
def parseNumberNat (cs : List Char) : Option (Nat × List Char) :=
  let ds := cs.takeWhile Char.isDigit
  let rest := cs.dropWhile Char.isDigit
  if ds.isEmpty then none
  else if 1 < ds.length && ds.head? == some '0' then none
  else
    match rest with
    | [] => some (charsToNat ds, rest)
    | c :: _ =>
      if c = '.' || c = 'e' || c = 'E' then none else some (charsToNat ds, rest)

/-- Parse a JSON integer with its optional leading minus sign. -/
def parseNumber (cs : List Char) : Option (Int × List Char) :=
  match cs with
  | [] => none
  | c :: cs1 =>
    if c = '-' then (parseNumberNat cs1).map (fun p => (-(p.1 : Int), p.2))
    else (parseNumberNat (c :: cs1)).map (fun p => ((p.1 : Int), p.2))

mutual

/-- Recursive-descent JSON value parsing with explicit fuel; returns the
value and the unconsumed input.  Fuel drops at most twice per consumed
character, so `2 * length + 2` is always enough. -/
def parseVal : Nat → List Char → Option (Json × List Char)
| 0, _ => none
| f + 1, cs =>
  match skipWs cs with
  | [] => none
  | c :: rest =>
    if c = 'n' then
      match rest with
      | 'u' :: 'l' :: 'l' :: r => some (.null, r)
      | _ => none
    else if c = 't' then
      match rest with
      | 'r' :: 'u' :: 'e' :: r => some (.bool true, r)
      | _ => none
    else if c = 'f' then
      match rest with
      | 'a' :: 'l' :: 's' :: 'e' :: r => some (.bool false, r)
      | _ => none
    else if c = '"' then
      (parseStringBody rest.length rest).map (fun p => (.str (String.mk p.1), p.2))
    else if c = '[' then
      match skipWs rest with
      | [] => none
      | c2 :: r2 =>
        if c2 = ']' then some (.arr .nil, r2)
        else (parseElems f (c2 :: r2)).map (fun p => (.arr p.1, p.2))
    else if c = lbrace then
      match skipWs rest with
      | [] => none
      | c2 :: r2 =>
        if c2 = rbrace then some (.obj .nil, r2)
        else (parseFields f (c2 :: r2)).map (fun p => (.obj p.1, p.2))
    else (parseNumber (c :: rest)).map (fun p => (.num p.1, p.2))

/-- Parse the elements of a nonempty array, after the opening bracket,
up to and over the closing bracket. -/
def parseElems : Nat → List Char → Option (JsonArr × List Char)
| 0, _ => none
| f + 1, cs =>
  match parseVal f cs with
  | none => none
  | some (j, r) =>
    match skipWs r with
    | [] => none
    | c :: r1 =>
      if c = ',' then (parseElems f r1).map (fun p => (.cons j p.1, p.2))
      else if c = ']' then some (.cons j .nil, r1)
      else none

/-- Parse the fields of a nonempty object, after the opening brace,
up to and over the closing brace. -/
def parseFields : Nat → List Char → Option (JsonObj × List Char)
| 0, _ => none
| f + 1, cs =>
  match skipWs cs with
  | [] => none
  | c :: cs1 =>
    if c = '"' then
      match parseStringBody cs1.length cs1 with
      | none => none
      | some (k, r) =>
        match skipWs r with
        | [] => none
        | c1 :: r1 =>
          if c1 = ':' then
            match parseVal f r1 with
            | none => none
            | some (v, r2) =>
              match skipWs r2 with
              | [] => none
              | c2 :: r3 =>
                if c2 = ',' then
                  (parseFields f r3).map (fun p => (.cons (String.mk k) v p.1, p.2))
                else if c2 = rbrace then some (.cons (String.mk k) v .nil, r3)
                else none
          else none
    else none

end

/-- `serde_json::from_str`: parse one JSON value and insist nothing but
whitespace follows it. -/
def parseJson (s : String) : Option Json :=
  match parseVal (2 * s.data.length + 2) s.data with
  | none => none
  | some (j, rest) => if (skipWs rest).isEmpty then some j else none

/-- The whole per-manifest pass of `update_package_jsons` at the byte level:
parse the contents (`expect` on failure: `none`), rewrite the two
submappings (`unwrap` panic: `none`), and serialize back with a trailing
newline. -/
def rewriteFileText (canary : String) (contents : String) : Option String :=
  (parseJson contents).bind fun j =>
    (updateManifest canary j).map serializeFile

/-- `update_package_jsons` (`src/main.rs:130-169`) over the globbed files,
as `(path, contents)` pairs in glob order: each file is read, parsed,
rewritten and written back in place; any `expect`/`unwrap` failure panics
and aborts the run (`none`).  The result is the written file set. -/
def update_package_jsons (canary : String) :
    List (String × String) → Option (List (String × String))
| [] => some []
| (path, contents) :: rest =>
  match rewriteFileText canary contents with
  | none => none
  | some out => (update_package_jsons canary rest).map (fun fs => (path, out) :: fs)

mutual

/-- A structural size of a JSON value that bounds the parser fuel its
printed form needs. -/
def jsize : Json → Nat
| .null => 1
| .bool _ => 1
| .num _ => 1
| .str _ => 1
| .arr es => 1 + asize es
| .obj fs => 1 + osize fs

/-- Fuel bound for an array's elements. -/
def asize : JsonArr → Nat
| .nil => 1
| .cons h t => 1 + jsize h + asize t

/-- Fuel bound for an object's fields. -/
def osize : JsonObj → Nat
| .nil => 1
| .cons _ v t => 1 + jsize v + osize t

end

/-! ## Theorems: toolchain resolution -/

/-- C8: if the first executable found on the search path canonicalizes to a
corepack-managed path, `check_yarn_installation` succeeds immediately, and
the remaining candidates never influence the outcome (the conclusion holds
for every `rest`). -/
theorem yarn_first_managed_ok (first : String)
    (h : isCorepackPath first = true) :
    ∀ rest : List String, check_yarn_installation (first :: rest) = YarnCheck.ok := by
  intro rest
  simp [check_yarn_installation, h]

/-- Witness for `yarn_first_managed_ok`: a managed first candidate succeeds
even with a second, unmanaged candidate behind it. -/
theorem yarn_first_managed_ok_witness :
    check_yarn_installation
      ["/home/u/.cache/node/corepack/v1/yarn/bin/yarn", "/usr/local/bin/yarn"] =
      YarnCheck.ok :=
  yarn_first_managed_ok "/home/u/.cache/node/corepack/v1/yarn/bin/yarn" (by decide)
    ["/usr/local/bin/yarn"]

/-- C6: a non-managed first candidate shadowing a managed candidate
somewhere on the path is the ambiguous-installation failure (`exit(1)` after
the corepack diagnostic), distinct from the plain multiplicity failure. -/
theorem yarn_shadowed_managed_ambiguous (yarns : List String) (first : String)
    (rest : List String) (hy : yarns = first :: rest)
    (hfirst : isCorepackPath first = false)
    (hmanaged : yarns.any isCorepackPath = true) :
    check_yarn_installation yarns = YarnCheck.ambiguousInstallation := by
  subst hy
  simp [check_yarn_installation, hfirst, hmanaged]

/-- Witness for `yarn_shadowed_managed_ambiguous`: an unmanaged
`/usr/local/bin/yarn` found before a corepack-managed one. -/
theorem yarn_shadowed_managed_ambiguous_witness :
    check_yarn_installation
      ["/usr/local/bin/yarn", "/home/u/.cache/node/corepack/v1/yarn/bin/yarn"] =
      YarnCheck.ambiguousInstallation :=
  yarn_shadowed_managed_ambiguous _ "/usr/local/bin/yarn"
    ["/home/u/.cache/node/corepack/v1/yarn/bin/yarn"] rfl (by decide) (by decide)

/-- C7: more than one candidate and none of them managed is the
multiple-installations failure (`exit(1)` after the first-wins warning). -/
theorem yarn_multiple_unmanaged (yarns : List String)
    (hlen : 1 < yarns.length)
    (hnone : ∀ p ∈ yarns, isCorepackPath p = false) :
    check_yarn_installation yarns = YarnCheck.multipleInstallations := by
  match yarns, hlen with
  | first :: rest, hlen =>
    have hfirst : isCorepackPath first = false := hnone first (by simp)
    have hany : (first :: rest).any isCorepackPath = false := by
      simp only [List.any_eq_false]
      intro p hp
      simp [hnone p hp]
    simp [check_yarn_installation, hfirst, hany, hlen]
    intro h
    subst h
    simp at hlen

/-- Witness for `yarn_multiple_unmanaged`: two unmanaged candidates. -/
theorem yarn_multiple_unmanaged_witness :
    check_yarn_installation ["/usr/local/bin/yarn", "/opt/homebrew/bin/yarn"] =
      YarnCheck.multipleInstallations :=
  yarn_multiple_unmanaged ["/usr/local/bin/yarn", "/opt/homebrew/bin/yarn"]
    (by decide) (by decide)

/-- C1 counterexample: with exactly one candidate on the search path, that
candidate unmanaged, `check_yarn_installation` returns normally (the run
proceeds) — it does not fail with the ambiguous-installation exit the claim
asserts. -/
theorem yarn_single_unmanaged_counterexample :
    check_yarn_installation ["/usr/local/bin/yarn"] = YarnCheck.ok ∧
    check_yarn_installation ["/usr/local/bin/yarn"] ≠
      YarnCheck.ambiguousInstallation := by
  constructor
  · decide
  · decide

/-- C1 (amended): for a search path on which exactly one candidate is found
and that candidate is not corepack-managed, resolution succeeds — the check
returns normally and the process continues; no `AmbiguousInstallation`
failure occurs.  (Both error branches require either a managed candidate
somewhere or more than one candidate.) -/
theorem yarn_single_unmanaged_ok (p : String)
    (h : isCorepackPath p = false) :
    check_yarn_installation [p] = YarnCheck.ok := by
  simp [check_yarn_installation, h]

/-- Witness for `yarn_single_unmanaged_ok`. -/
theorem yarn_single_unmanaged_ok_witness :
    check_yarn_installation ["/opt/homebrew/bin/yarn"] = YarnCheck.ok :=
  yarn_single_unmanaged_ok "/opt/homebrew/bin/yarn" (by decide)

/-! ## Theorems: version gate -/

/-- C3: the version check enforces only a major-version floor:
`19.9.0` fails the `>=20` gate, `20.0.0` and `v20.1.3` pass it (leading `v`
tolerated), and an unparseable version string yields the parse error
(`none`, over which `check_node` panics in its `unwrap`) rather than a
boolean. -/
theorem check_node_version_gate :
    satisfies_ge "19.9.0" 20 = some false ∧
    satisfies_ge "20.0.0" 20 = some true ∧
    satisfies_ge "v20.1.3" 20 = some true ∧
    satisfies_ge "not-a-version" 20 = none ∧
    check_node "not-a-version" = NodeCheck.panicked := by
  refine ⟨by decide, by decide, by decide, by decide, by decide⟩

/-! ## Theorems: manifest rewriting -/

/-- C2: rewriting an empty manifest set modifies zero manifests and raises
no error: the run over zero files succeeds, writes back zero files, and the
modified count is zero.  (The Rust function returns `()`; the written file
set is its observable outcome.) -/
theorem update_package_jsons_empty (canary : String) :
    update_package_jsons canary [] = some [] ∧
    (update_package_jsons canary []).map List.length = some 0 :=
  ⟨rfl, rfl⟩

/-! ## Object lookup / update lemmas -/

/-- Setting one key leaves lookups of every other key unchanged. -/
theorem JsonObj.find_setVal_ne : ∀ (o : JsonObj) (k k2 : String) (v : Json),
    k2 ≠ k → (o.setVal k v).find k2 = o.find k2
| .nil, _, _, _, _ => rfl
| .cons k0 v0 t, k, k2, v, h => by
  by_cases hk : k0 = k
  · subst hk
    have hne : ¬(k0 = k2) := fun hh => h (hh ▸ rfl)
    simp [JsonObj.setVal, JsonObj.find, hne]
  · simp only [JsonObj.setVal, if_neg hk, JsonObj.find]
    by_cases h2 : k0 = k2
    · simp [h2]
    · simp [h2, JsonObj.find_setVal_ne t k k2 v h]

/-- Setting a present key makes its lookup return the new value. -/
theorem JsonObj.find_setVal_self : ∀ (o : JsonObj) (k : String) (v w : Json),
    o.find k = some w → (o.setVal k v).find k = some v
| .nil, k, v, w, h => by simp [JsonObj.find] at h
| .cons k0 v0 t, k, v, w, h => by
  by_cases hk : k0 = k
  · simp [JsonObj.setVal, JsonObj.find, hk]
  · simp only [JsonObj.find, if_neg hk] at h
    simp [JsonObj.setVal, JsonObj.find, hk,
      JsonObj.find_setVal_self t k v w h]

/-- Writing back the value a key already holds is the identity. -/
theorem JsonObj.setVal_self : ∀ (o : JsonObj) (k : String) (w : Json),
    o.find k = some w → o.setVal k w = o
| .nil, k, w, h => by simp [JsonObj.find] at h
| .cons k0 v0 t, k, w, h => by
  by_cases hk : k0 = k
  · simp only [JsonObj.find, if_pos hk] at h
    cases h
    simp [JsonObj.setVal, hk]
  · simp only [JsonObj.find, if_neg hk] at h
    simp [JsonObj.setVal, hk, JsonObj.setVal_self t k w h]

/-- Setting a value never changes the key list. -/
theorem JsonObj.keys_setVal : ∀ (o : JsonObj) (k : String) (v : Json),
    (o.setVal k v).keys = o.keys
| .nil, _, _ => rfl
| .cons k0 v0 t, k, v => by
  by_cases hk : k0 = k
  · simp [JsonObj.setVal, JsonObj.keys, hk]
  · simp [JsonObj.setVal, JsonObj.keys, hk, JsonObj.keys_setVal t k v]

/-- `Json.set` on one key leaves `Json.get` of every other key unchanged. -/
theorem Json.get_set_ne (j : Json) (k k2 : String) (v : Json) (h : k2 ≠ k) :
    (j.set k v).get k2 = j.get k2 := by
  cases j with
  | obj fs => simp [Json.set, Json.get, JsonObj.find_setVal_ne fs k k2 v h]
  | null => rfl
  | bool b => rfl
  | num n => rfl
  | str s => rfl
  | arr es => rfl

/-- After setting a present key, `Json.get` returns the new value. -/
theorem Json.get_set_self (j : Json) (k : String) (v w : Json)
    (h : j.get k = some w) : (j.set k v).get k = some v := by
  cases j with
  | obj fs =>
    simpa [Json.set, Json.get] using
      JsonObj.find_setVal_self fs k v w (by simpa [Json.get] using h)
  | null => simp [Json.get] at h
  | bool b => simp [Json.get] at h
  | num n => simp [Json.get] at h
  | str s => simp [Json.get] at h
  | arr es => simp [Json.get] at h

/-- Writing back the value a key already holds is the identity on documents. -/
theorem Json.set_self (j : Json) (k : String) (w : Json)
    (h : j.get k = some w) : j.set k w = j := by
  cases j with
  | obj fs => simp [Json.set, JsonObj.setVal_self fs k w (by simpa [Json.get] using h)]
  | null => rfl
  | bool b => rfl
  | num n => rfl
  | str s => rfl
  | arr es => rfl

/-- The rewrite loop preserves the key list of a submapping. -/
theorem JsonObj.keys_rewriteDeps : ∀ (canary : String) (o : JsonObj),
    (rewriteDeps canary o).keys = o.keys
| _, .nil => rfl
| canary, .cons k v t => by
  simp [rewriteDeps, JsonObj.keys, JsonObj.keys_rewriteDeps canary t]

/-- Lookup after the rewrite loop: a prefixed key now holds the canary
string, any other key its old value, and an absent key stays absent. -/
theorem JsonObj.find_rewriteDeps : ∀ (canary : String) (o : JsonObj) (name : String),
    (rewriteDeps canary o).find name =
      (o.find name).map
        (fun v => if strStartsWith name rwScope then Json.str canary else v)
| _, .nil, _ => rfl
| canary, .cons k v t, name => by
  by_cases hk : k = name
  · subst hk
    simp [rewriteDeps, JsonObj.find]
  · simp [rewriteDeps, JsonObj.find, hk,
      JsonObj.find_rewriteDeps canary t name]

/-- The rewrite loop is idempotent on a submapping. -/
theorem rewriteDeps_idem : ∀ (canary : String) (o : JsonObj),
    rewriteDeps canary (rewriteDeps canary o) = rewriteDeps canary o
| _, .nil => rfl
| canary, .cons k v t => by
  by_cases hk : strStartsWith k rwScope
  · simp [rewriteDeps, hk, rewriteDeps_idem canary t]
  · simp [rewriteDeps, hk, rewriteDeps_idem canary t]

/-- A value is an object exactly when it is built by `Json.obj`. -/
theorem Json.isObj_iff (v : Json) : v.isObj = true ↔ ∃ fs, v = Json.obj fs := by
  cases v <;> simp [Json.isObj]

/-- `updateKey` on an absent key is the identity. -/
theorem updateKey_absent (canary key : String) (j : Json)
    (h : Json.get j key = none) : updateKey canary key j = some j := by
  simp [updateKey, h]

/-- `updateKey` on a present object value rewrites it in place. -/
theorem updateKey_obj (canary key : String) (j : Json) (d : JsonObj)
    (h : Json.get j key = some (Json.obj d)) :
    updateKey canary key j =
      some (Json.set j key (Json.obj (rewriteDeps canary d))) := by
  simp [updateKey, h]

/-- `updateKey` on a present non-object value panics (`none`). -/
theorem updateKey_nonobj (canary key : String) (j v : Json)
    (hget : Json.get j key = some v) (hv : v.isObj = false) :
    updateKey canary key j = none := by
  cases v with
  | obj fs => simp [Json.isObj] at hv
  | null => simp [updateKey, hget]
  | bool b => simp [updateKey, hget]
  | num n => simp [updateKey, hget]
  | str s => simp [updateKey, hget]
  | arr es => simp [updateKey, hget]

/-- A successful `updateKey` leaves every other key's value untouched. -/
theorem updateKey_get_ne (canary key : String) (j j1 : Json)
    (h : updateKey canary key j = some j1) :
    ∀ k2, k2 ≠ key → Json.get j1 k2 = Json.get j k2 := by
  intro k2 hk2
  cases hget : Json.get j key with
  | none =>
    rw [updateKey_absent canary key j hget] at h
    cases h
    rfl
  | some w =>
    cases w with
    | obj d =>
      rw [updateKey_obj canary key j d hget] at h
      cases h
      exact Json.get_set_ne j key k2 _ hk2
    | null => simp [updateKey, hget] at h
    | bool b => simp [updateKey, hget] at h
    | num n => simp [updateKey, hget] at h
    | str s => simp [updateKey, hget] at h
    | arr es => simp [updateKey, hget] at h

/-- What a successful `updateKey` leaves under the key itself: either the
key was absent and stays absent, or it held an object and now holds that
object rewritten. -/
theorem updateKey_get_self (canary key : String) (j j1 : Json)
    (h : updateKey canary key j = some j1) :
    (Json.get j key = none ∧ j1 = j) ∨
      ∃ d, Json.get j key = some (Json.obj d) ∧
        Json.get j1 key = some (Json.obj (rewriteDeps canary d)) := by
  cases hget : Json.get j key with
  | none =>
    rw [updateKey_absent canary key j hget] at h
    cases h
    exact Or.inl ⟨rfl, rfl⟩
  | some w =>
    cases w with
    | obj d =>
      rw [updateKey_obj canary key j d hget] at h
      cases h
      exact Or.inr ⟨d, rfl, Json.get_set_self j key _ _ hget⟩
    | null => simp [updateKey, hget] at h
    | bool b => simp [updateKey, hget] at h
    | num n => simp [updateKey, hget] at h
    | str s => simp [updateKey, hget] at h
    | arr es => simp [updateKey, hget] at h

/-- Applying `updateKey` to a document whose value under the key is already
the rewritten one (such as the output of a previous run) changes nothing. -/
theorem updateKey_again (canary key : String) (j j1 j2 : Json)
    (h : updateKey canary key j = some j1)
    (hg : Json.get j2 key = Json.get j1 key) :
    updateKey canary key j2 = some j2 := by
  rcases updateKey_get_self canary key j j1 h with ⟨h1, he⟩ | ⟨d, hd, h1⟩
  · subst he
    exact updateKey_absent canary key j2 (hg.trans h1)
  · have hget2 : Json.get j2 key = some (Json.obj (rewriteDeps canary d)) :=
      hg.trans h1
    rw [updateKey_obj canary key j2 _ hget2, rewriteDeps_idem,
      Json.set_self j2 key _ hget2]

/-- `manifestEntry` depends on the document only through `Json.get` of the
submapping. -/
theorem manifestEntry_congr (j1 j : Json) (sub name : String)
    (h : Json.get j1 sub = Json.get j sub) :
    manifestEntry j1 sub name = manifestEntry j sub name := by
  simp [manifestEntry, h]

/-- `subKeys` depends on the document only through `Json.get`. -/
theorem subKeys_congr (j1 j : Json) (sub : String)
    (h : Json.get j1 sub = Json.get j sub) :
    subKeys j1 sub = subKeys j sub := by
  simp [subKeys, h]

/-- `Json.set` never changes the top-level key list. -/
theorem topKeys_set (j : Json) (k : String) (v : Json) :
    topKeys (Json.set j k v) = topKeys j := by
  cases j with
  | obj fs => simp [Json.set, topKeys, JsonObj.keys_setVal]
  | null => rfl
  | bool b => rfl
  | num n => rfl
  | str s => rfl
  | arr es => rfl

/-- A successful `updateKey` rewrites the entries under its key exactly as
the loop does, entry by entry. -/
theorem updateKey_entry (canary key : String) (j j1 : Json) (name : String)
    (h : updateKey canary key j = some j1) :
    manifestEntry j1 key name =
      (manifestEntry j key name).map
        (fun v => if strStartsWith name rwScope then Json.str canary else v) := by
  rcases updateKey_get_self canary key j j1 h with ⟨h1, he⟩ | ⟨d, hd, h1⟩
  · subst he
    simp [manifestEntry, h1]
  · simp [manifestEntry, h1, hd, JsonObj.find_rewriteDeps]

/-- A successful `updateKey` preserves the top-level key list and the key
list of every submapping. -/
theorem updateKey_keys (canary key : String) (j j1 : Json)
    (h : updateKey canary key j = some j1) :
    topKeys j1 = topKeys j ∧ subKeys j1 key = subKeys j key := by
  rcases updateKey_get_self canary key j j1 h with ⟨h1, he⟩ | ⟨d, hd, h1⟩
  · subst he
    exact ⟨rfl, rfl⟩
  · constructor
    · rw [updateKey_obj canary key j d hd] at h
      cases h
      exact topKeys_set j key _
    · simp [subKeys, h1, hd, JsonObj.keys_rewriteDeps]

/-- On a document whose submapping under the key is an object or absent,
`updateKey` succeeds. -/
theorem updateKey_total (canary key : String) (j : Json)
    (h : objOrAbsent j key = true) :
    ∃ j1, updateKey canary key j = some j1 := by
  cases hget : Json.get j key with
  | none => exact ⟨j, updateKey_absent canary key j hget⟩
  | some w =>
    have hw : w.isObj = true := by simpa [objOrAbsent, hget] using h
    obtain ⟨d, rfl⟩ := (Json.isObj_iff w).1 hw
    exact ⟨_, updateKey_obj canary key j d hget⟩

/-- C10: a manifest whose `dependencies` key — or, with a well-formed
`dependencies`, whose `devDependencies` key — holds a non-object value (a
string, an array, …) makes the rewrite pass panic in the unguarded
`as_object_mut().unwrap()` (modelled as `none`) instead of returning a
defined error. -/
theorem update_nonobject_submapping_panics (canary : String) (j v : Json)
    (hv : v.isObj = false) :
    (Json.get j "dependencies" = some v → updateManifest canary j = none) ∧
    (objOrAbsent j "dependencies" = true →
      Json.get j "devDependencies" = some v → updateManifest canary j = none) := by
  constructor
  · intro h
    simp [updateManifest, updateKey_nonobj canary "dependencies" j v h hv]
  · intro hd h
    obtain ⟨j1, hj1⟩ := updateKey_total canary "dependencies" j hd
    have hdev : Json.get j1 "devDependencies" = some v := by
      rw [updateKey_get_ne canary "dependencies" j j1 hj1 "devDependencies"
        (by decide), h]
    simp [updateManifest, hj1,
      updateKey_nonobj canary "devDependencies" j1 v hdev hv]

/-- Witness for `update_nonobject_submapping_panics`: a manifest whose
`dependencies` key holds a string. -/
theorem update_nonobject_submapping_panics_witness :
    updateManifest "9.9.9"
      (Json.obj (JsonObj.cons "dependencies" (Json.str "oops") JsonObj.nil)) =
      none :=
  (update_nonobject_submapping_panics "9.9.9"
    (Json.obj (JsonObj.cons "dependencies" (Json.str "oops") JsonObj.nil))
    (Json.str "oops") (by decide)).1 rfl

/-- C4: on any manifest whose `dependencies` and `devDependencies` are each
absent or object-valued, the rewrite succeeds, and entry-wise in both
submappings: an entry whose key starts with `"@redwoodjs/"` now holds the
canary version, any other entry keeps its old value, and an absent
submapping stays absent with nothing rewritten and no error. -/
theorem update_rewrites_prefixed (canary : String) (j : Json)
    (h1 : objOrAbsent j "dependencies" = true)
    (h2 : objOrAbsent j "devDependencies" = true) :
    ∃ j2, updateManifest canary j = some j2 ∧
      ∀ sub name, sub = "dependencies" ∨ sub = "devDependencies" →
        manifestEntry j2 sub name =
          (manifestEntry j sub name).map
            (fun v => if strStartsWith name rwScope then Json.str canary else v) := by
  obtain ⟨j1, hj1⟩ := updateKey_total canary "dependencies" j h1
  have h2a : objOrAbsent j1 "devDependencies" = true := by
    unfold objOrAbsent
    rw [updateKey_get_ne canary "dependencies" j j1 hj1 "devDependencies"
      (by decide)]
    exact h2
  obtain ⟨j2, hj2⟩ := updateKey_total canary "devDependencies" j1 h2a
  refine ⟨j2, by simp [updateManifest, hj1, hj2], ?_⟩
  rintro sub name (rfl | rfl)
  · have e1 : manifestEntry j2 "dependencies" name =
        manifestEntry j1 "dependencies" name :=
      manifestEntry_congr j2 j1 "dependencies" name
        (updateKey_get_ne canary "devDependencies" j1 j2 hj2 "dependencies"
          (by decide))
    rw [e1, updateKey_entry canary "dependencies" j j1 name hj1]
  · have e1 : manifestEntry j1 "devDependencies" name =
        manifestEntry j "devDependencies" name :=
      manifestEntry_congr j1 j "devDependencies" name
        (updateKey_get_ne canary "dependencies" j j1 hj1 "devDependencies"
          (by decide))
    rw [updateKey_entry canary "devDependencies" j1 j2 name hj2, e1]

/-- Witness for `update_rewrites_prefixed`: a manifest with one prefixed and
one unrelated entry under `dependencies` and no `devDependencies`. -/
theorem update_rewrites_prefixed_witness :
    ∃ j2,
      updateManifest "3.0.0-canary"
        (Json.obj (JsonObj.cons "dependencies"
          (Json.obj (JsonObj.cons "@redwoodjs/core" (Json.str "1.0.0")
            (JsonObj.cons "react" (Json.str "18") JsonObj.nil)))
          JsonObj.nil)) = some j2 ∧
      ∀ sub name, sub = "dependencies" ∨ sub = "devDependencies" →
        manifestEntry j2 sub name =
          (manifestEntry
            (Json.obj (JsonObj.cons "dependencies"
              (Json.obj (JsonObj.cons "@redwoodjs/core" (Json.str "1.0.0")
                (JsonObj.cons "react" (Json.str "18") JsonObj.nil)))
              JsonObj.nil)) sub name).map
            (fun v => if strStartsWith name rwScope then Json.str "3.0.0-canary" else v) :=
  update_rewrites_prefixed "3.0.0-canary" _ (by decide) (by decide)

/-- Rewriting a document that already came out of a rewrite is the
identity: the second pass finds every prefixed entry already holding the
canary value and writes the same value back. -/
theorem updateManifest_idem (canary : String) (j j2 : Json)
    (h : updateManifest canary j = some j2) :
    updateManifest canary j2 = some j2 := by
  obtain ⟨j1, hj1, hj2⟩ := Option.bind_eq_some.1 h
  have hdep : updateKey canary "dependencies" j2 = some j2 :=
    updateKey_again canary "dependencies" j j1 j2 hj1
      (updateKey_get_ne canary "devDependencies" j1 j2 hj2 "dependencies"
        (by decide))
  have hdev : updateKey canary "devDependencies" j2 = some j2 :=
    updateKey_again canary "devDependencies" j1 j2 j2 hj2 rfl
  simp [updateManifest, hdep, hdev]

/-! ## Serialization format lemmas -/

/-- The character of a decimal digit is an ASCII digit. -/
theorem digitChar_isDigit (d : Nat) (h : d < 10) :
    (Char.ofNat (48 + d)).isDigit = true := by
  interval_cases d <;> decide

/-- `natChars` never produces the empty string. -/
theorem natChars_ne_nil (n : Nat) : natChars n ≠ [] := by
  unfold natChars
  by_cases h0 : n = 0
  · simp [h0]
  · simp [h0, Nat.digits_ne_nil_iff_ne_zero.2 h0]

/-- Every character of `natChars` is an ASCII digit. -/
theorem natChars_all_digit (n : Nat) : ∀ c ∈ natChars n, c.isDigit = true := by
  intro c hc
  unfold natChars at hc
  by_cases h0 : n = 0
  · simp [h0] at hc
    subst hc
    decide
  · simp [h0, List.mem_map, List.mem_reverse] at hc
    obtain ⟨d, hd, rfl⟩ := hc
    exact digitChar_isDigit d (Nat.digits_lt_base (by norm_num) hd)

/-- The last character of a printed natural number is a digit. -/
theorem natChars_getLast_isDigit (m : Nat) :
    ∃ c, (natChars m).getLast? = some c ∧ c.isDigit = true := by
  cases hl : (natChars m).getLast? with
  | none => exact absurd (List.getLast?_eq_none_iff.1 hl) (natChars_ne_nil m)
  | some c =>
    exact ⟨c, rfl,
      natChars_all_digit m c (List.mem_of_mem_getLast? (by simp [hl]))⟩

/-- A printed integer never ends in a newline. -/
theorem intChars_getLast_ne_newline (n : Int) :
    (intChars n).getLast? ≠ some '\n' := by
  unfold intChars
  by_cases hn : n < 0
  · simp only [if_pos hn]
    obtain ⟨c, hc, hcd⟩ := natChars_getLast_isDigit n.natAbs
    cases he : natChars n.natAbs with
    | nil => exact absurd he (natChars_ne_nil n.natAbs)
    | cons x xs =>
      rw [List.getLast?_cons_cons, ← he, hc]
      intro hcon
      cases hcon
      exact absurd hcd (by decide)
  · simp only [if_neg hn]
    obtain ⟨c, hc, hcd⟩ := natChars_getLast_isDigit n.toNat
    rw [hc]
    intro hcon
    cases hcon
    exact absurd hcd (by decide)

/-- The pretty printer never ends a value with a newline, so the written
file carries exactly the one newline appended after it. -/
theorem printJson_getLast_ne_newline (j : Json) (ind : Nat) :
    (printJson j ind).getLast? ≠ some '\n' := by
  cases j with
  | null =>
    have h : (['n', 'u', 'l', 'l'] : List Char).getLast? ≠ some '\n' := by decide
    exact h
  | bool b =>
    cases b with
    | true =>
      have h : (['t', 'r', 'u', 'e'] : List Char).getLast? ≠ some '\n' := by decide
      exact h
    | false =>
      have h : (['f', 'a', 'l', 's', 'e'] : List Char).getLast? ≠ some '\n' := by
        decide
      exact h
  | num n => exact intChars_getLast_ne_newline n
  | str s =>
    show (('"' :: escapeList s.data) ++ ['"']).getLast? ≠ some '\n'
    rw [List.getLast?_concat]
    decide
  | arr es =>
    cases es with
    | nil =>
      have h : (['[', ']'] : List Char).getLast? ≠ some '\n' := by decide
      exact h
    | cons hd t =>
      simp only [printJson]
      rw [List.getLast?_concat]
      decide
  | obj fs =>
    cases fs with
    | nil =>
      have h : ([lbrace, rbrace] : List Char).getLast? ≠ some '\n' := by decide
      exact h
    | cons k v t =>
      simp only [printJson]
      rw [List.getLast?_concat]
      decide

/-- C9: a rewritten manifest is written back to its own path, fully
replacing the prior content with the pretty-printed document followed by
exactly one trailing newline (the printed value itself never ends in a
newline), and both the top-level key order and the key order inside each
submapping are exactly those of the input document. -/
theorem serialize_stable_format (canary path contents : String) (j j2 : Json)
    (h1 : parseJson contents = some j)
    (h2 : updateManifest canary j = some j2) :
    update_package_jsons canary [(path, contents)] =
      some [(path, serializeFile j2)] ∧
    serializeFile j2 = String.mk (printJson j2 0 ++ ['\n']) ∧
    (printJson j2 0).getLast? ≠ some '\n' ∧
    topKeys j2 = topKeys j ∧
    subKeys j2 "dependencies" = subKeys j "dependencies" ∧
    subKeys j2 "devDependencies" = subKeys j "devDependencies" := by
  obtain ⟨j1, hj1, hj2⟩ := Option.bind_eq_some.1 h2
  have k1 := updateKey_keys canary "dependencies" j j1 hj1
  have k2 := updateKey_keys canary "devDependencies" j1 j2 hj2
  refine ⟨?_, rfl, printJson_getLast_ne_newline j2 0, ?_, ?_, ?_⟩
  · simp [update_package_jsons, rewriteFileText, h1, h2]
  · rw [k2.1, k1.1]
  · rw [subKeys_congr j2 j1 "dependencies"
      (updateKey_get_ne canary "devDependencies" j1 j2 hj2 "dependencies"
        (by decide)), k1.2]
  · rw [k2.2, subKeys_congr j1 j "devDependencies"
      (updateKey_get_ne canary "dependencies" j j1 hj1 "devDependencies"
        (by decide))]

/-- Witness for `serialize_stable_format`: one concrete manifest file. -/
theorem serialize_stable_format_witness :
    update_package_jsons "3.0.0-canary"
        [("web/package.json", "\x7b\"dependencies\": \x7b\"@redwoodjs/core\": \"1.0.0\"\x7d\x7d")] =
      some [("web/package.json", serializeFile (Json.obj (JsonObj.cons "dependencies" (Json.obj (JsonObj.cons "@redwoodjs/core" (Json.str "3.0.0-canary") JsonObj.nil)) JsonObj.nil)))] ∧
    serializeFile (Json.obj (JsonObj.cons "dependencies" (Json.obj (JsonObj.cons "@redwoodjs/core" (Json.str "3.0.0-canary") JsonObj.nil)) JsonObj.nil)) =
      String.mk (printJson (Json.obj (JsonObj.cons "dependencies" (Json.obj (JsonObj.cons "@redwoodjs/core" (Json.str "3.0.0-canary") JsonObj.nil)) JsonObj.nil)) 0 ++ ['\n']) ∧
    (printJson (Json.obj (JsonObj.cons "dependencies" (Json.obj (JsonObj.cons "@redwoodjs/core" (Json.str "3.0.0-canary") JsonObj.nil)) JsonObj.nil)) 0).getLast? ≠ some '\n' ∧
    topKeys (Json.obj (JsonObj.cons "dependencies" (Json.obj (JsonObj.cons "@redwoodjs/core" (Json.str "3.0.0-canary") JsonObj.nil)) JsonObj.nil)) = topKeys (Json.obj (JsonObj.cons "dependencies" (Json.obj (JsonObj.cons "@redwoodjs/core" (Json.str "1.0.0") JsonObj.nil)) JsonObj.nil)) ∧
    subKeys (Json.obj (JsonObj.cons "dependencies" (Json.obj (JsonObj.cons "@redwoodjs/core" (Json.str "3.0.0-canary") JsonObj.nil)) JsonObj.nil)) "dependencies" = subKeys (Json.obj (JsonObj.cons "dependencies" (Json.obj (JsonObj.cons "@redwoodjs/core" (Json.str "1.0.0") JsonObj.nil)) JsonObj.nil)) "dependencies" ∧
    subKeys (Json.obj (JsonObj.cons "dependencies" (Json.obj (JsonObj.cons "@redwoodjs/core" (Json.str "3.0.0-canary") JsonObj.nil)) JsonObj.nil)) "devDependencies" = subKeys (Json.obj (JsonObj.cons "dependencies" (Json.obj (JsonObj.cons "@redwoodjs/core" (Json.str "1.0.0") JsonObj.nil)) JsonObj.nil)) "devDependencies" :=
  serialize_stable_format "3.0.0-canary" "web/package.json"
    "\x7b\"dependencies\": \x7b\"@redwoodjs/core\": \"1.0.0\"\x7d\x7d"
    (Json.obj (JsonObj.cons "dependencies" (Json.obj (JsonObj.cons "@redwoodjs/core" (Json.str "1.0.0") JsonObj.nil)) JsonObj.nil))
    (Json.obj (JsonObj.cons "dependencies" (Json.obj (JsonObj.cons "@redwoodjs/core" (Json.str "3.0.0-canary") JsonObj.nil)) JsonObj.nil))
    rfl rfl

/-! ## Parser support lemmas -/

/-- Whitespace at the head is skipped. -/
theorem skipWs_cons_of_ws (c : Char) (l : List Char) (h : isJsonWs c = true) :
    skipWs (c :: l) = skipWs l := by
  simp [skipWs, h]

/-- A non-whitespace head stops the skipping. -/
theorem skipWs_cons_nonws (c : Char) (l : List Char) (h : isJsonWs c = false) :
    skipWs (c :: l) = c :: l := by
  simp [skipWs, h]

/-- Leading spaces are skipped. -/
theorem skipWs_replicate_space :
    ∀ (m : Nat) (l : List Char), skipWs (List.replicate m ' ' ++ l) = skipWs l
| 0, l => rfl
| m + 1, l => by
  rw [List.replicate_succ, List.cons_append,
    skipWs_cons_of_ws ' ' _ (by decide), skipWs_replicate_space m l]

/-- Leading indentation is skipped. -/
theorem skipWs_indent (n : Nat) (l : List Char) :
    skipWs (indentChars n ++ l) = skipWs l :=
  skipWs_replicate_space (2 * n) l

/-- A newline plus indentation is skipped. -/
theorem skipWs_newline_indent (n : Nat) (l : List Char) :
    skipWs ('\n' :: (indentChars n ++ l)) = skipWs l := by
  rw [skipWs_cons_of_ws '\n' _ (by decide), skipWs_indent]

/-- `parseVal` looks at its input only through `skipWs`. -/
theorem parseVal_congr (f : Nat) (a b : List Char) (h : skipWs a = skipWs b) :
    parseVal f a = parseVal f b := by
  cases f with
  | zero => rfl
  | succ f => simp only [parseVal, h]

/-- `parseElems` looks at its input only through `skipWs` (its first step is
`parseVal`). -/
theorem parseElems_congr (f : Nat) (a b : List Char) (h : skipWs a = skipWs b) :
    parseElems f a = parseElems f b := by
  cases f with
  | zero => rfl
  | succ f => simp only [parseElems, parseVal_congr f a b h]

/-- `parseFields` looks at its input only through `skipWs`. -/
theorem parseFields_congr (f : Nat) (a b : List Char) (h : skipWs a = skipWs b) :
    parseFields f a = parseFields f b := by
  cases f with
  | zero => rfl
  | succ f => simp only [parseFields, h]

/-- Digit value of a digit character. -/
theorem digitVal_ofNat (d : Nat) (h : d < 10) :
    digitVal (Char.ofNat (48 + d)) = d := by
  interval_cases d <;> decide

/-- `hexVal` inverts `hexDigitChar`. -/
theorem hexVal_hexDigitChar (d : Nat) (h : d < 16) :
    hexVal (hexDigitChar d) = some d := by
  interval_cases d <;> decide

/-- An ASCII digit is not whitespace and not a closing token. -/
theorem digit_head_ok (c : Char) (h : c.isDigit = true) :
    isJsonWs c = false ∧ c ≠ ']' ∧ c ≠ ',' ∧ c ≠ rbrace ∧ c ≠ 'n' ∧
      c ≠ 't' ∧ c ≠ 'f' ∧ c ≠ '"' ∧ c ≠ '[' ∧ c ≠ lbrace ∧ c ≠ '-' := by
  have hsp : c ≠ ' ' := fun hh => absurd h (by subst hh; decide)
  have hta : c ≠ '\t' := fun hh => absurd h (by subst hh; decide)
  have hnl : c ≠ '\n' := fun hh => absurd h (by subst hh; decide)
  have hcr : c ≠ '\r' := fun hh => absurd h (by subst hh; decide)
  refine ⟨by simp [isJsonWs, hsp, hta, hnl, hcr], ?_, ?_, ?_, ?_, ?_, ?_, ?_, ?_, ?_, ?_⟩
  all_goals intro hh
  all_goals exact absurd h (by subst hh; decide)
/-- Each character escapes to a nonempty chunk. -/
theorem escapeChar_length_pos (c : Char) : 1 ≤ (escapeChar c).length := by
  unfold escapeChar
  split_ifs <;> simp

/-- Escaping only lengthens a string. -/
theorem escapeList_length_ge : ∀ s : List Char, s.length ≤ (escapeList s).length
| [] => Nat.le_refl 0
| c :: cs => by
  simp only [escapeList, List.length_cons, List.length_append]
  have h1 := escapeChar_length_pos c
  have h2 := escapeList_length_ge cs
  omega

/-- Parsing inverts escaping: the string body parser, run on an escaped
string followed by the closing quote, returns the original string and the
input after the quote. -/
theorem parseStringBody_escape : ∀ (s : List Char) (f : Nat) (rest : List Char),
    s.length + 1 ≤ f →
    parseStringBody f (escapeList s ++ '"' :: rest) = some (s, rest)
| [], f, rest, hf => by
  obtain ⟨f1, rfl⟩ : ∃ f1, f = f1 + 1 := ⟨f - 1, by omega⟩
  rfl
| c :: cs, f, rest, hf => by
  obtain ⟨f1, rfl⟩ : ∃ f1, f = f1 + 1 := ⟨f - 1, by omega⟩
  have hcs : cs.length + 1 ≤ f1 := by
    simp only [List.length_cons] at hf
    omega
  have IH := parseStringBody_escape cs f1 rest hcs
  by_cases h1 : c = '"'
  · subst h1
    have step : parseStringBody (f1 + 1) (escapeList ('"' :: cs) ++ '"' :: rest) =
        (parseStringBody f1 (escapeList cs ++ '"' :: rest)).map
          (fun p => ('"' :: p.1, p.2)) := rfl
    rw [step, IH]
    rfl
  · by_cases h2 : c = '\\'
    · subst h2
      have step : parseStringBody (f1 + 1) (escapeList ('\\' :: cs) ++ '"' :: rest) =
          (parseStringBody f1 (escapeList cs ++ '"' :: rest)).map
            (fun p => ('\\' :: p.1, p.2)) := rfl
      rw [step, IH]
      rfl
    · by_cases h3 : c = '\x08'
      · subst h3
        have step : parseStringBody (f1 + 1)
            (escapeList ('\x08' :: cs) ++ '"' :: rest) =
            (parseStringBody f1 (escapeList cs ++ '"' :: rest)).map
              (fun p => ('\x08' :: p.1, p.2)) := rfl
        rw [step, IH]
        rfl
      · by_cases h4 : c = '\t'
        · subst h4
          have step : parseStringBody (f1 + 1)
              (escapeList ('\t' :: cs) ++ '"' :: rest) =
              (parseStringBody f1 (escapeList cs ++ '"' :: rest)).map
                (fun p => ('\t' :: p.1, p.2)) := rfl
          rw [step, IH]
          rfl
        · by_cases h5 : c = '\n'
          · subst h5
            have step : parseStringBody (f1 + 1)
                (escapeList ('\n' :: cs) ++ '"' :: rest) =
                (parseStringBody f1 (escapeList cs ++ '"' :: rest)).map
                  (fun p => ('\n' :: p.1, p.2)) := rfl
            rw [step, IH]
            rfl
          · by_cases h6 : c = '\x0c'
            · subst h6
              have step : parseStringBody (f1 + 1)
                  (escapeList ('\x0c' :: cs) ++ '"' :: rest) =
                  (parseStringBody f1 (escapeList cs ++ '"' :: rest)).map
                    (fun p => ('\x0c' :: p.1, p.2)) := rfl
              rw [step, IH]
              rfl
            · by_cases h7 : c = '\r'
              · subst h7
                have step : parseStringBody (f1 + 1)
                    (escapeList ('\r' :: cs) ++ '"' :: rest) =
                    (parseStringBody f1 (escapeList cs ++ '"' :: rest)).map
                      (fun p => ('\r' :: p.1, p.2)) := rfl
                rw [step, IH]
                rfl
              · by_cases h8 : c.toNat < 32
                · have hesc : escapeChar c =
                      ['\\', 'u', '0', '0', hexDigitChar (c.toNat / 16),
                        hexDigitChar (c.toNat % 16)] := by
                    unfold escapeChar
                    rw [if_neg h1, if_neg h2, if_neg h3, if_neg h4, if_neg h5,
                      if_neg h6, if_neg h7, if_pos h8]
                  have e3 : hexVal (hexDigitChar (c.toNat / 16)) =
                      some (c.toNat / 16) := hexVal_hexDigitChar _ (by omega)
                  have e4 : hexVal (hexDigitChar (c.toNat % 16)) =
                      some (c.toNat % 16) := hexVal_hexDigitChar _ (by omega)
                  simp only [escapeList]
                  rw [hesc]
                  simp only [List.cons_append, List.nil_append]
                  simp [parseStringBody, e3, e4,
                    show hexVal '0' = some 0 from rfl, IH]
                  have harith : c.toNat / 16 * 16 + c.toNat % 16 = c.toNat := by
                    omega
                  rw [harith, Char.ofNat_toNat]
                · have hesc : escapeChar c = [c] := by
                    unfold escapeChar
                    rw [if_neg h1, if_neg h2, if_neg h3, if_neg h4, if_neg h5,
                      if_neg h6, if_neg h7, if_neg h8]
                  simp only [escapeList]
                  rw [hesc]
                  simp only [List.cons_append, List.nil_append]
                  simp [parseStringBody, h1, h2, h8, IH]

/-- Splitting a list at a predicate boundary: if everything in `l` satisfies
`p` and `r` starts with a failing element (or is empty), `takeWhile` /
`dropWhile` over `l ++ r` recover `l` and `r`. -/
theorem takeWhile_append_all {α : Type} (p : α → Bool) : ∀ (l r : List α),
    (∀ c ∈ l, p c = true) → (∀ c, r.head? = some c → p c = false) →
    (l ++ r).takeWhile p = l ∧ (l ++ r).dropWhile p = r
| [], r, _, hr => by
  cases r with
  | nil => exact ⟨rfl, rfl⟩
  | cons c cr =>
    have hc := hr c rfl
    exact ⟨by simp [List.takeWhile_cons, hc], by simp [List.dropWhile_cons, hc]⟩
| a :: l, r, hl, hr => by
  have ha : p a = true := hl a (by simp)
  have ih := takeWhile_append_all p l r (fun c hc => hl c (by simp [hc])) hr
  exact ⟨by simp [List.takeWhile_cons, ha, ih.1],
    by simp [List.dropWhile_cons, ha, ih.2]⟩

/-- Digit-character folding agrees with digit folding. -/
theorem foldl_digitVal_map : ∀ (l : List Nat) (a : Nat), (∀ d ∈ l, d < 10) →
    List.foldl (fun acc c => acc * 10 + digitVal c) a
      (l.map (fun d => Char.ofNat (48 + d))) =
    List.foldl (fun acc d => acc * 10 + d) a l
| [], _, _ => rfl
| d :: l, a, h => by
  simp only [List.map_cons, List.foldl_cons]
  rw [digitVal_ofNat d (h d (by simp))]
  exact foldl_digitVal_map l _ (fun e he => h e (by simp [he]))

/-- Folding most-significant-first digits computes the value. -/
theorem foldl_msd : ∀ (l : List Nat) (a : Nat),
    List.foldl (fun acc d => acc * 10 + d) a l =
      a * 10 ^ l.length + Nat.ofDigits 10 l.reverse
| [], a => by simp [Nat.ofDigits_nil]
| d :: l, a => by
  simp only [List.foldl_cons, List.reverse_cons, List.length_cons]
  rw [foldl_msd l (a * 10 + d), Nat.ofDigits_append]
  simp [Nat.ofDigits_cons, Nat.ofDigits_nil, pow_succ]
  ring

/-- `charsToNat` inverts `natChars`. -/
theorem charsToNat_natChars (n : Nat) : charsToNat (natChars n) = n := by
  by_cases h0 : n = 0
  · subst h0
    decide
  · unfold natChars charsToNat
    rw [if_neg h0]
    rw [foldl_digitVal_map _ _
      (fun d hd => Nat.digits_lt_base (by norm_num) (List.mem_reverse.1 hd))]
    rw [foldl_msd]
    simp [Nat.ofDigits_digits]

/-- The leading digit of a printed nonzero number is not `'0'`. -/
theorem natChars_head_ne_zero (n : Nat) (h : n ≠ 0) :
    (natChars n).head? ≠ some '0' := by
  unfold natChars
  rw [if_neg h, List.head?_map, List.head?_reverse]
  have hne : Nat.digits 10 n ≠ [] := Nat.digits_ne_nil_iff_ne_zero.2 h
  have hsome : (Nat.digits 10 n).getLast? =
      some ((Nat.digits 10 n).getLast hne) :=
    Option.mem_def.mp (List.getLast_mem_getLast? hne)
  rw [hsome]
  have hd10 : (Nat.digits 10 n).getLast hne < 10 :=
    Nat.digits_lt_base (by norm_num) (List.getLast_mem hne)
  have hd0 : (Nat.digits 10 n).getLast hne ≠ 0 :=
    Nat.getLast_digit_ne_zero 10 h
  have hch : ¬ (Char.ofNat (48 + (Nat.digits 10 n).getLast hne) = '0') := by
    have hd1 : 1 ≤ (Nat.digits 10 n).getLast hne := Nat.one_le_iff_ne_zero.2 hd0
    interval_cases h : (Nat.digits 10 n).getLast hne <;> decide
  simp [hch]

/-- The integer parser inverts `natChars` when a non-number character (or
the end of input) follows. -/
theorem parseNumberNat_natChars (n : Nat) (rest : List Char)
    (hrest : ∀ c, rest.head? = some c →
      c.isDigit = false ∧ c ≠ '.' ∧ c ≠ 'e' ∧ c ≠ 'E') :
    parseNumberNat (natChars n ++ rest) = some (n, rest) := by
  have hsplit := takeWhile_append_all Char.isDigit (natChars n) rest
    (natChars_all_digit n) (fun c hc => (hrest c hc).1)
  have hempty : (natChars n).isEmpty = false := by
    cases he : natChars n with
    | nil => exact absurd he (natChars_ne_nil n)
    | cons x xs => rfl
  have hzero : (1 < (natChars n).length && (natChars n).head? == some '0') =
      false := by
    by_cases h0 : n = 0
    · subst h0
      decide
    · have := natChars_head_ne_zero n h0
      simp [this]
  unfold parseNumberNat
  simp only [hsplit.1, hsplit.2, hempty, hzero, Bool.false_eq_true, if_false,
    charsToNat_natChars]
  cases rest with
  | nil => rfl
  | cons c cr =>
    have hc := hrest c rfl
    simp [hc.2.1, hc.2.2.1, hc.2.2.2]

/-- The signed integer parser inverts `intChars`. -/
theorem parseNumber_intChars (n : Int) (rest : List Char)
    (hrest : ∀ c, rest.head? = some c →
      c.isDigit = false ∧ c ≠ '.' ∧ c ≠ 'e' ∧ c ≠ 'E') :
    parseNumber (intChars n ++ rest) = some (n, rest) := by
  unfold intChars
  by_cases hn : n < 0
  · rw [if_pos hn]
    simp only [List.cons_append]
    simp only [parseNumber, if_pos rfl]
    rw [parseNumberNat_natChars n.natAbs rest hrest]
    have hval : -(n.natAbs : Int) = n := by omega
    show some (-(n.natAbs : Int), rest) = some (n, rest)
    rw [hval]
  · rw [if_neg hn]
    obtain ⟨x, xs, he⟩ : ∃ x xs, natChars n.toNat = x :: xs := by
      cases h : natChars n.toNat with
      | nil => exact absurd h (natChars_ne_nil _)
      | cons x xs => exact ⟨x, xs, rfl⟩
    have hx : x.isDigit = true := natChars_all_digit n.toNat x (by rw [he]; simp)
    have hxm : ¬ x = '-' := fun hh => absurd hx (by subst hh; decide)
    rw [he]
    simp only [List.cons_append]
    simp only [parseNumber, if_neg hxm]
    rw [show x :: (xs ++ rest) = natChars n.toNat ++ rest by rw [he]; rfl]
    rw [parseNumberNat_natChars n.toNat rest hrest]
    have hval : ((n.toNat : Int)) = n := by omega
    show some ((n.toNat : Int), rest) = some (n, rest)
    rw [hval]

/-- A printed integer is never empty. -/
theorem intChars_ne_nil (n : Int) : intChars n ≠ [] := by
  unfold intChars
  by_cases hn : n < 0
  · simp [hn]
  · simp [hn, natChars_ne_nil]

/-- Every value is printed with at least one character. -/
theorem jsize_pos (j : Json) : 1 ≤ jsize j := by
  cases j <;> simp [jsize]

/-- The first character of a printed value: never whitespace and never a
closing token, so the parser's dispatch always sees it unmoved. -/
theorem printJson_head (j : Json) (ind : Nat) :
    ∃ c cs, printJson j ind = c :: cs ∧ isJsonWs c = false ∧
      c ≠ ']' ∧ c ≠ rbrace ∧ c ≠ ',' := by
  cases j with
  | null => exact ⟨'n', _, rfl, by decide, by decide, by decide, by decide⟩
  | bool b =>
    cases b with
    | true => exact ⟨'t', _, rfl, by decide, by decide, by decide, by decide⟩
    | false => exact ⟨'f', _, rfl, by decide, by decide, by decide, by decide⟩
  | num n =>
    by_cases hn : n < 0
    · refine ⟨'-', natChars n.natAbs, ?_, by decide, by decide, by decide,
        by decide⟩
      show intChars n = _
      unfold intChars
      rw [if_pos hn]
    · obtain ⟨x, xs, he⟩ : ∃ x xs, natChars n.toNat = x :: xs := by
        cases h : natChars n.toNat with
        | nil => exact absurd h (natChars_ne_nil _)
        | cons x xs => exact ⟨x, xs, rfl⟩
      have hx : x.isDigit = true :=
        natChars_all_digit n.toNat x (by rw [he]; simp)
      obtain ⟨hws, hne1, hne2, hne3, _⟩ := digit_head_ok x hx
      refine ⟨x, xs, ?_, hws, hne1, hne3, hne2⟩
      show intChars n = _
      unfold intChars
      rw [if_neg hn, he]
  | str s => exact ⟨'"', _, rfl, by decide, by decide, by decide, by decide⟩
  | arr es =>
    cases es with
    | nil => exact ⟨'[', _, rfl, by decide, by decide, by decide, by decide⟩
    | cons h t => exact ⟨'[', _, rfl, by decide, by decide, by decide, by decide⟩
  | obj fs =>
    cases fs with
    | nil => exact ⟨lbrace, _, rfl, by decide, by decide, by decide, by decide⟩
    | cons k v t =>
      exact ⟨lbrace, _, rfl, by decide, by decide, by decide, by decide⟩

mutual

/-- The fuel bound: a value's size is covered by twice its printed length. -/
theorem jsize_le_print : ∀ (j : Json) (ind : Nat),
    jsize j ≤ 2 * (printJson j ind).length
| .null, ind => by exact (by norm_num : (1 : Nat) ≤ 2 * 4)
| .bool true, ind => by exact (by norm_num : (1 : Nat) ≤ 2 * 4)
| .bool false, ind => by exact (by norm_num : (1 : Nat) ≤ 2 * 5)
| .num n, ind => by
  have h1 : 1 ≤ (intChars n).length := by
    cases he : intChars n with
    | nil => exact absurd he (intChars_ne_nil n)
    | cons x xs => simp
  show 1 ≤ 2 * (intChars n).length
  omega
| .str s, ind => by
  show 1 ≤ 2 * (('"' :: escapeList s.data ++ ['"']).length)
  simp only [List.length_append, List.length_cons]
  omega
| .arr .nil, ind => by exact (by norm_num : (2 : Nat) ≤ 2 * 2)
| .arr (.cons h t), ind => by
  have ih := asize_le_items h t (ind + 1)
  show 1 + asize (JsonArr.cons h t) ≤ 2 *
    (('[' :: printItems (JsonArr.cons h t) (ind + 1) ++
      '\n' :: indentChars ind ++ [']']).length)
  simp only [List.length_append, List.length_cons]
  omega
| .obj .nil, ind => by exact (by norm_num : (2 : Nat) ≤ 2 * 2)
| .obj (.cons k v t), ind => by
  have ih := osize_le_fields k v t (ind + 1)
  show 1 + osize (JsonObj.cons k v t) ≤ 2 *
    ((lbrace :: printFields (JsonObj.cons k v t) (ind + 1) ++
      '\n' :: indentChars ind ++ [rbrace]).length)
  simp only [List.length_append, List.length_cons]
  omega
termination_by j ind => sizeOf j

/-- Fuel bound for nonempty array element lines. -/
theorem asize_le_items : ∀ (h : Json) (t : JsonArr) (ind : Nat),
    asize (JsonArr.cons h t) ≤ 2 * (printItems (JsonArr.cons h t) ind).length
| h, .nil, ind => by
  have ih := jsize_le_print h ind
  show 1 + jsize h + 1 ≤ 2 *
    (('\n' :: indentChars ind ++ printJson h ind ++ [] ++
      printItems JsonArr.nil ind).length)
  simp only [List.length_append, List.length_cons, printItems,
    List.length_nil]
  omega
| h, .cons h2 t2, ind => by
  have ih1 := jsize_le_print h ind
  have ih2 := asize_le_items h2 t2 ind
  show 1 + jsize h + asize (JsonArr.cons h2 t2) ≤ 2 *
    (('\n' :: indentChars ind ++ printJson h ind ++ [','] ++
      printItems (JsonArr.cons h2 t2) ind).length)
  simp only [List.length_append, List.length_cons]
  omega
termination_by h t ind => sizeOf (JsonArr.cons h t)

/-- Fuel bound for nonempty object field lines. -/
theorem osize_le_fields : ∀ (k : String) (v : Json) (t : JsonObj) (ind : Nat),
    osize (JsonObj.cons k v t) ≤ 2 * (printFields (JsonObj.cons k v t) ind).length
| k, v, .nil, ind => by
  have ih := jsize_le_print v ind
  show 1 + jsize v + 1 ≤ 2 *
    (('\n' :: indentChars ind ++ '"' :: escapeList k.data ++ '"' :: ':' :: ' ' ::
      printJson v ind ++ [] ++ printFields JsonObj.nil ind).length)
  simp only [List.length_append, List.length_cons, printFields,
    List.length_nil]
  omega
| k, v, .cons k2 v2 t2, ind => by
  have ih1 := jsize_le_print v ind
  have ih2 := osize_le_fields k2 v2 t2 ind
  show 1 + jsize v + osize (JsonObj.cons k2 v2 t2) ≤ 2 *
    (('\n' :: indentChars ind ++ '"' :: escapeList k.data ++ '"' :: ':' :: ' ' ::
      printJson v ind ++ [','] ++ printFields (JsonObj.cons k2 v2 t2) ind).length)
  simp only [List.length_append, List.length_cons]
  omega
termination_by k v t ind => sizeOf (JsonObj.cons k v t)

end

/-- A nonempty array's elements are at least one fuel unit. -/
theorem asize_pos (es : JsonArr) : 1 ≤ asize es := by
  cases es <;> simp [asize] <;> omega

/-- A nonempty object's fields are at least one fuel unit. -/
theorem osize_pos (fs : JsonObj) : 1 ≤ osize fs := by
  cases fs <;> simp [osize] <;> omega

/-- After a printed value, whitespace skipping is the identity. -/
theorem skipWs_print_append (j : Json) (ind : Nat) (x : List Char) :
    skipWs (printJson j ind ++ x) = printJson j ind ++ x := by
  obtain ⟨c, cs, he, hws, _, _, _⟩ := printJson_head j ind
  rw [he, List.cons_append, skipWs_cons_nonws c _ hws]

/-- Dispatch into a nonempty array: seeing `[` and then a non-`]`
character, `parseVal` hands over to `parseElems`. -/
theorem parseVal_arr_step (f : Nat) (l r2 : List Char) (c2 : Char)
    (hl : skipWs l = c2 :: r2) (hne : ¬ c2 = ']') :
    parseVal (f + 1) ('[' :: l) =
      (parseElems f (c2 :: r2)).map (fun p => (Json.arr p.1, p.2)) := by
  simp [parseVal, skipWs, hl, hne,
    show isJsonWs '[' = false from rfl,
    show ¬(('[' : Char) = 'n') from by decide,
    show ¬(('[' : Char) = 't') from by decide,
    show ¬(('[' : Char) = 'f') from by decide,
    show ¬(('[' : Char) = '"') from by decide]

/-- Dispatch into a nonempty object: seeing `{` and then a non-`}`
character, `parseVal` hands over to `parseFields`. -/
theorem parseVal_obj_step (f : Nat) (l r2 : List Char) (c2 : Char)
    (hl : skipWs l = c2 :: r2) (hne : ¬ c2 = rbrace) :
    parseVal (f + 1) (lbrace :: l) =
      (parseFields f (c2 :: r2)).map (fun p => (Json.obj p.1, p.2)) := by
  simp [parseVal, skipWs, hl, hne,
    show isJsonWs lbrace = false from rfl,
    show ¬(lbrace = 'n') from by decide,
    show ¬(lbrace = 't') from by decide,
    show ¬(lbrace = 'f') from by decide,
    show ¬(lbrace = '"') from by decide,
    show ¬(lbrace = '[') from by decide]

/-- One array element followed by a comma: the loop continues. -/
theorem parseElems_step_comma (f : Nat) (cs r r1 : List Char) (j : Json)
    (h1 : parseVal f cs = some (j, r)) (h2 : skipWs r = ',' :: r1) :
    parseElems (f + 1) cs =
      (parseElems f r1).map (fun p => (JsonArr.cons j p.1, p.2)) := by
  simp [parseElems, h1, h2]

/-- The last array element followed by the closing bracket. -/
theorem parseElems_step_close (f : Nat) (cs r r1 : List Char) (j : Json)
    (h1 : parseVal f cs = some (j, r)) (h2 : skipWs r = ']' :: r1) :
    parseElems (f + 1) cs = some (JsonArr.cons j JsonArr.nil, r1) := by
  simp [parseElems, h1, h2]

/-- One object field followed by a comma: the loop continues. -/
theorem parseFields_step_comma (f : Nat) (cs cs1 kd r r1 r2 r3 : List Char)
    (v : Json)
    (h0 : skipWs cs = '"' :: cs1)
    (h1 : parseStringBody cs1.length cs1 = some (kd, r))
    (h2 : skipWs r = ':' :: r1)
    (h3 : parseVal f r1 = some (v, r2))
    (h4 : skipWs r2 = ',' :: r3) :
    parseFields (f + 1) cs =
      (parseFields f r3).map
        (fun p => (JsonObj.cons (String.mk kd) v p.1, p.2)) := by
  simp [parseFields, h0, h1, h2, h3, h4]

/-- The last object field followed by the closing brace. -/
theorem parseFields_step_close (f : Nat) (cs cs1 kd r r1 r2 r3 : List Char)
    (v : Json)
    (h0 : skipWs cs = '"' :: cs1)
    (h1 : parseStringBody cs1.length cs1 = some (kd, r))
    (h2 : skipWs r = ':' :: r1)
    (h3 : parseVal f r1 = some (v, r2))
    (h4 : skipWs r2 = rbrace :: r3) :
    parseFields (f + 1) cs =
      some (JsonObj.cons (String.mk kd) v JsonObj.nil, r3) := by
  simp [parseFields, h0, h1, h2, h3, h4, show ¬ (rbrace = ',') from by decide]

mutual

/-- The parser inverts the printer on values: `parseVal`, run on a printed
value followed by a delimiter (`,`, newline, or nothing), returns exactly
that value and the delimiter. -/
theorem parseVal_print : ∀ (j : Json) (ind f : Nat) (rest : List Char),
    jsize j ≤ f →
    (rest.head? = none ∨ rest.head? = some ',' ∨ rest.head? = some '\n') →
    parseVal f (printJson j ind ++ rest) = some (j, rest)
| j, ind, f, rest, hf, hrest => by
  obtain ⟨f1, rfl⟩ : ∃ f1, f = f1 + 1 := ⟨f - 1, by have := jsize_pos j; omega⟩
  cases j with
  | null => rfl
  | bool b =>
    cases b with
    | true => rfl
    | false => rfl
  | num n =>
    have hrest2 : ∀ c, rest.head? = some c →
        c.isDigit = false ∧ c ≠ '.' ∧ c ≠ 'e' ∧ c ≠ 'E' := by
      intro c hc
      rcases hrest with hh | hh | hh <;> rw [hh] at hc
      · cases hc
      · injection hc with hc2
        subst hc2
        exact ⟨by decide, by decide, by decide, by decide⟩
      · injection hc with hc2
        subst hc2
        exact ⟨by decide, by decide, by decide, by decide⟩
    by_cases hn : n < 0
    · have hin : printJson (Json.num n) ind ++ rest =
          '-' :: (natChars n.natAbs ++ rest) := by
        show intChars n ++ rest = _
        unfold intChars
        rw [if_pos hn, List.cons_append]
      rw [hin]
      have step : parseVal (f1 + 1) ('-' :: (natChars n.natAbs ++ rest)) =
          (parseNumber ('-' :: (natChars n.natAbs ++ rest))).map
            (fun p => (Json.num p.1, p.2)) := rfl
      rw [step]
      rw [show ('-' :: (natChars n.natAbs ++ rest) : List Char) =
        intChars n ++ rest from by
          unfold intChars
          rw [if_pos hn, List.cons_append]]
      rw [parseNumber_intChars n rest hrest2]
      rfl
    · obtain ⟨x, xs, he⟩ : ∃ x xs, natChars n.toNat = x :: xs := by
        cases hcc : natChars n.toNat with
        | nil => exact absurd hcc (natChars_ne_nil _)
        | cons x xs => exact ⟨x, xs, rfl⟩
      have hx : x.isDigit = true :=
        natChars_all_digit n.toNat x (by rw [he]; simp)
      obtain ⟨hws, _, _, _, d1, d2, d3, d4, d5, d6, _⟩ := digit_head_ok x hx
      have hin : printJson (Json.num n) ind ++ rest = x :: (xs ++ rest) := by
        show intChars n ++ rest = _
        unfold intChars
        rw [if_neg hn, he, List.cons_append]
      rw [hin]
      have step : parseVal (f1 + 1) (x :: (xs ++ rest)) =
          (parseNumber (x :: (xs ++ rest))).map (fun p => (Json.num p.1, p.2)) := by
        simp [parseVal, skipWs, hws, d1, d2, d3, d4, d5, d6]
      rw [step]
      rw [show (x :: (xs ++ rest) : List Char) = intChars n ++ rest from by
        unfold intChars
        rw [if_neg hn, he, List.cons_append]]
      rw [parseNumber_intChars n rest hrest2]
      rfl
  | str s =>
    have hin : printJson (Json.str s) ind ++ rest =
        '"' :: (escapeList s.data ++ ('"' :: rest)) := by
      simp only [printJson, List.cons_append, List.append_assoc,
        List.singleton_append, List.nil_append]
    rw [hin]
    have hlen : s.data.length + 1 ≤
        (escapeList s.data ++ ('"' :: rest)).length := by
      have := escapeList_length_ge s.data
      simp only [List.length_append, List.length_cons]
      omega
    have step : parseVal (f1 + 1) ('"' :: (escapeList s.data ++ ('"' :: rest))) =
        (parseStringBody (escapeList s.data ++ ('"' :: rest)).length
          (escapeList s.data ++ ('"' :: rest))).map
          (fun p => (Json.str (String.mk p.1), p.2)) := rfl
    rw [step, parseStringBody_escape s.data _ rest hlen]
    rfl
  | arr es =>
    cases es with
    | nil => rfl
    | cons h t =>
      obtain ⟨c2, cs2, hph, hws2, hne2, _, _⟩ := printJson_head h (ind + 1)
      have hin : printJson (Json.arr (JsonArr.cons h t)) ind ++ rest =
          '[' :: (printItems (JsonArr.cons h t) (ind + 1) ++
            ('\n' :: (indentChars ind ++ (']' :: rest)))) := by
        simp only [printJson, List.cons_append, List.append_assoc,
          List.singleton_append, List.nil_append]
      rw [hin]
      obtain ⟨mid, e1⟩ : ∃ mid,
          printItems (JsonArr.cons h t) (ind + 1) ++
            ('\n' :: (indentChars ind ++ (']' :: rest))) =
          '\n' :: (indentChars (ind + 1) ++ (printJson h (ind + 1) ++ mid)) := by
        cases t with
        | nil =>
          exact ⟨'\n' :: (indentChars ind ++ (']' :: rest)), by
            simp only [printItems, List.cons_append, List.append_assoc,
              List.append_nil, List.nil_append]⟩
        | cons h2 t2 =>
          exact ⟨',' :: (printItems (JsonArr.cons h2 t2) (ind + 1) ++
            ('\n' :: (indentChars ind ++ (']' :: rest)))), by
            simp only [printItems, List.cons_append, List.append_assoc,
              List.nil_append]⟩
      have hskip : skipWs (printItems (JsonArr.cons h t) (ind + 1) ++
          ('\n' :: (indentChars ind ++ (']' :: rest)))) = c2 :: (cs2 ++ mid) := by
        rw [e1, skipWs_newline_indent, skipWs_print_append, hph,
          List.cons_append]
      rw [parseVal_arr_step f1 _ (cs2 ++ mid) c2 hskip hne2]
      rw [parseElems_congr f1 (c2 :: (cs2 ++ mid))
        (printItems (JsonArr.cons h t) (ind + 1) ++
          ('\n' :: (indentChars ind ++ (']' :: rest))))
        (by rw [skipWs_cons_nonws c2 _ hws2, ← hskip])]
      rw [parseElems_print h t (ind + 1) ind f1 rest
        (by simp only [jsize] at hf; omega)]
      rfl
  | obj fs =>
    cases fs with
    | nil => rfl
    | cons k v t =>
      have hin : printJson (Json.obj (JsonObj.cons k v t)) ind ++ rest =
          lbrace :: (printFields (JsonObj.cons k v t) (ind + 1) ++
            ('\n' :: (indentChars ind ++ (rbrace :: rest)))) := by
        simp only [printJson, List.cons_append, List.append_assoc,
          List.singleton_append, List.nil_append]
      rw [hin]
      obtain ⟨mid, e1⟩ : ∃ mid,
          printFields (JsonObj.cons k v t) (ind + 1) ++
            ('\n' :: (indentChars ind ++ (rbrace :: rest))) =
          '\n' :: (indentChars (ind + 1) ++ ('"' :: mid)) := by
        cases t with
        | nil =>
          exact ⟨escapeList k.data ++ ('"' :: (':' :: (' ' ::
            (printJson v (ind + 1) ++
              ('\n' :: (indentChars ind ++ (rbrace :: rest))))))), by
            simp only [printFields, List.cons_append, List.append_assoc,
              List.append_nil, List.nil_append]⟩
        | cons k2 v2 t2 =>
          exact ⟨escapeList k.data ++ ('"' :: (':' :: (' ' ::
            (printJson v (ind + 1) ++ (',' ::
              (printFields (JsonObj.cons k2 v2 t2) (ind + 1) ++
                ('\n' :: (indentChars ind ++ (rbrace :: rest))))))))), by
            simp only [printFields, List.cons_append, List.append_assoc,
              List.nil_append]⟩
      have hskip : skipWs (printFields (JsonObj.cons k v t) (ind + 1) ++
          ('\n' :: (indentChars ind ++ (rbrace :: rest)))) = '"' :: mid := by
        rw [e1, skipWs_newline_indent, skipWs_cons_nonws '"' _ (by decide)]
      rw [parseVal_obj_step f1 _ mid '"' hskip (by decide)]
      rw [parseFields_congr f1 ('"' :: mid)
        (printFields (JsonObj.cons k v t) (ind + 1) ++
          ('\n' :: (indentChars ind ++ (rbrace :: rest))))
        (by rw [skipWs_cons_nonws '"' _ (by decide), ← hskip])]
      rw [parseFields_print k v t (ind + 1) ind f1 rest
        (by simp only [jsize] at hf; omega)]
      rfl
termination_by j ind f rest => sizeOf j

/-- The parser inverts the printer on the element lines of a nonempty
array, up to and over the closing bracket. -/
theorem parseElems_print : ∀ (h : Json) (t : JsonArr) (ind ind0 f : Nat)
    (rest : List Char),
    asize (JsonArr.cons h t) ≤ f →
    parseElems f (printItems (JsonArr.cons h t) ind ++
      ('\n' :: (indentChars ind0 ++ (']' :: rest)))) =
      some (JsonArr.cons h t, rest)
| h, t, ind, ind0, f, rest, hsize => by
  obtain ⟨f1, rfl⟩ : ∃ f1, f = f1 + 1 := ⟨f - 1, by
    have h1 := jsize_pos h
    have h2 := asize_pos t
    simp only [asize] at hsize
    omega⟩
  have hjh : jsize h ≤ f1 := by
    have h2 := asize_pos t
    simp only [asize] at hsize
    omega
  cases t with
  | nil =>
    have e1 : printItems (JsonArr.cons h JsonArr.nil) ind ++
        ('\n' :: (indentChars ind0 ++ (']' :: rest))) =
        '\n' :: (indentChars ind ++ (printJson h ind ++
          ('\n' :: (indentChars ind0 ++ (']' :: rest))))) := by
      simp only [printItems, List.cons_append, List.append_assoc,
        List.append_nil, List.nil_append]
    have hval : parseVal f1 (printItems (JsonArr.cons h JsonArr.nil) ind ++
        ('\n' :: (indentChars ind0 ++ (']' :: rest)))) =
        some (h, '\n' :: (indentChars ind0 ++ (']' :: rest))) := by
      rw [parseVal_congr f1 _ (printJson h ind ++
        ('\n' :: (indentChars ind0 ++ (']' :: rest))))
        (by rw [e1, skipWs_newline_indent])]
      exact parseVal_print h ind f1 _ hjh (Or.inr (Or.inr rfl))
    exact parseElems_step_close f1 _ _ rest h hval
      (by rw [skipWs_newline_indent]
          exact skipWs_cons_nonws ']' rest (by decide))
  | cons h2 t2 =>
    have e1 : printItems (JsonArr.cons h (JsonArr.cons h2 t2)) ind ++
        ('\n' :: (indentChars ind0 ++ (']' :: rest))) =
        '\n' :: (indentChars ind ++ (printJson h ind ++
          (',' :: (printItems (JsonArr.cons h2 t2) ind ++
            ('\n' :: (indentChars ind0 ++ (']' :: rest))))))) := by
      simp only [printItems, List.cons_append, List.append_assoc,
        List.nil_append]
    have hval : parseVal f1
        (printItems (JsonArr.cons h (JsonArr.cons h2 t2)) ind ++
          ('\n' :: (indentChars ind0 ++ (']' :: rest)))) =
        some (h, ',' :: (printItems (JsonArr.cons h2 t2) ind ++
          ('\n' :: (indentChars ind0 ++ (']' :: rest))))) := by
      rw [parseVal_congr f1 _ (printJson h ind ++
        (',' :: (printItems (JsonArr.cons h2 t2) ind ++
          ('\n' :: (indentChars ind0 ++ (']' :: rest))))))
        (by rw [e1, skipWs_newline_indent])]
      exact parseVal_print h ind f1 _ hjh (Or.inr (Or.inl rfl))
    rw [parseElems_step_comma f1 _ _ _ h hval
      (skipWs_cons_nonws ',' _ (by decide))]
    rw [parseElems_print h2 t2 ind ind0 f1 rest
      (by simp only [asize] at hsize ⊢; omega)]
    rfl
termination_by h t ind ind0 f rest => sizeOf (JsonArr.cons h t)

/-- The parser inverts the printer on the field lines of a nonempty object,
up to and over the closing brace. -/
theorem parseFields_print : ∀ (k : String) (v : Json) (t : JsonObj)
    (ind ind0 f : Nat) (rest : List Char),
    osize (JsonObj.cons k v t) ≤ f →
    parseFields f (printFields (JsonObj.cons k v t) ind ++
      ('\n' :: (indentChars ind0 ++ (rbrace :: rest)))) =
      some (JsonObj.cons k v t, rest)
| k, v, t, ind, ind0, f, rest, hsize => by
  obtain ⟨f1, rfl⟩ : ∃ f1, f = f1 + 1 := ⟨f - 1, by
    have h1 := jsize_pos v
    have h2 := osize_pos t
    simp only [osize] at hsize
    omega⟩
  have hjv : jsize v ≤ f1 := by
    have h2 := osize_pos t
    simp only [osize] at hsize
    omega
  cases t with
  | nil =>
    have e1 : printFields (JsonObj.cons k v JsonObj.nil) ind ++
        ('\n' :: (indentChars ind0 ++ (rbrace :: rest))) =
        '\n' :: (indentChars ind ++ ('"' :: (escapeList k.data ++
          ('"' :: (':' :: (' ' :: (printJson v ind ++
            ('\n' :: (indentChars ind0 ++ (rbrace :: rest)))))))))) := by
      simp only [printFields, List.cons_append, List.append_assoc,
        List.append_nil, List.nil_append]
    have h0 : skipWs (printFields (JsonObj.cons k v JsonObj.nil) ind ++
        ('\n' :: (indentChars ind0 ++ (rbrace :: rest)))) =
        '"' :: (escapeList k.data ++ ('"' :: (':' :: (' ' ::
          (printJson v ind ++
            ('\n' :: (indentChars ind0 ++ (rbrace :: rest)))))))) := by
      rw [e1, skipWs_newline_indent, skipWs_cons_nonws '"' _ (by decide)]
    have h1 : parseStringBody
        (escapeList k.data ++ ('"' :: (':' :: (' ' :: (printJson v ind ++
          ('\n' :: (indentChars ind0 ++ (rbrace :: rest)))))))).length
        (escapeList k.data ++ ('"' :: (':' :: (' ' :: (printJson v ind ++
          ('\n' :: (indentChars ind0 ++ (rbrace :: rest)))))))) =
        some (k.data, ':' :: (' ' :: (printJson v ind ++
          ('\n' :: (indentChars ind0 ++ (rbrace :: rest)))))) := by
      apply parseStringBody_escape
      have := escapeList_length_ge k.data
      simp only [List.length_append, List.length_cons]
      omega
    have h3 : parseVal f1 (' ' :: (printJson v ind ++
        ('\n' :: (indentChars ind0 ++ (rbrace :: rest))))) =
        some (v, '\n' :: (indentChars ind0 ++ (rbrace :: rest))) := by
      rw [parseVal_congr f1 _ (printJson v ind ++
        ('\n' :: (indentChars ind0 ++ (rbrace :: rest))))
        (by rw [skipWs_cons_of_ws ' ' _ (by decide)])]
      exact parseVal_print v ind f1 _ hjv (Or.inr (Or.inr rfl))
    exact parseFields_step_close f1 _ _ _ _ _ _ _ v h0 h1
      (skipWs_cons_nonws ':' _ (by decide)) h3
      (by rw [skipWs_newline_indent]
          exact skipWs_cons_nonws rbrace rest (by decide))
  | cons k2 v2 t2 =>
    have e1 : printFields (JsonObj.cons k v (JsonObj.cons k2 v2 t2)) ind ++
        ('\n' :: (indentChars ind0 ++ (rbrace :: rest))) =
        '\n' :: (indentChars ind ++ ('"' :: (escapeList k.data ++
          ('"' :: (':' :: (' ' :: (printJson v ind ++ (',' ::
            (printFields (JsonObj.cons k2 v2 t2) ind ++
              ('\n' :: (indentChars ind0 ++ (rbrace :: rest)))))))))))) := by
      simp only [printFields, List.cons_append, List.append_assoc,
        List.nil_append]
    have h0 : skipWs (printFields (JsonObj.cons k v (JsonObj.cons k2 v2 t2)) ind
        ++ ('\n' :: (indentChars ind0 ++ (rbrace :: rest)))) =
        '"' :: (escapeList k.data ++ ('"' :: (':' :: (' ' ::
          (printJson v ind ++ (',' ::
            (printFields (JsonObj.cons k2 v2 t2) ind ++
              ('\n' :: (indentChars ind0 ++ (rbrace :: rest)))))))))) := by
      rw [e1, skipWs_newline_indent, skipWs_cons_nonws '"' _ (by decide)]
    have h1 : parseStringBody
        (escapeList k.data ++ ('"' :: (':' :: (' ' :: (printJson v ind ++
          (',' :: (printFields (JsonObj.cons k2 v2 t2) ind ++
            ('\n' :: (indentChars ind0 ++ (rbrace :: rest)))))))))).length
        (escapeList k.data ++ ('"' :: (':' :: (' ' :: (printJson v ind ++
          (',' :: (printFields (JsonObj.cons k2 v2 t2) ind ++
            ('\n' :: (indentChars ind0 ++ (rbrace :: rest)))))))))) =
        some (k.data, ':' :: (' ' :: (printJson v ind ++
          (',' :: (printFields (JsonObj.cons k2 v2 t2) ind ++
            ('\n' :: (indentChars ind0 ++ (rbrace :: rest)))))))) := by
      apply parseStringBody_escape
      have := escapeList_length_ge k.data
      simp only [List.length_append, List.length_cons]
      omega
    have h3 : parseVal f1 (' ' :: (printJson v ind ++
        (',' :: (printFields (JsonObj.cons k2 v2 t2) ind ++
          ('\n' :: (indentChars ind0 ++ (rbrace :: rest))))))) =
        some (v, ',' :: (printFields (JsonObj.cons k2 v2 t2) ind ++
          ('\n' :: (indentChars ind0 ++ (rbrace :: rest))))) := by
      rw [parseVal_congr f1 _ (printJson v ind ++
        (',' :: (printFields (JsonObj.cons k2 v2 t2) ind ++
          ('\n' :: (indentChars ind0 ++ (rbrace :: rest))))))
        (by rw [skipWs_cons_of_ws ' ' _ (by decide)])]
      exact parseVal_print v ind f1 _ hjv (Or.inr (Or.inl rfl))
    rw [parseFields_step_comma f1 _ _ _ _ _ _ _ v h0 h1
      (skipWs_cons_nonws ':' _ (by decide)) h3
      (skipWs_cons_nonws ',' _ (by decide))]
    rw [parseFields_print k2 v2 t2 ind ind0 f1 rest
      (by simp only [osize] at hsize ⊢; omega)]
    rfl
termination_by k v t ind ind0 f rest => sizeOf (JsonObj.cons k v t)

end

/-- Round trip at the file level: the bytes `update_package_jsons` writes
for a document parse back to exactly that document (the trailing newline is
insignificant whitespace). -/
theorem parseJson_serializeFile (j : Json) :
    parseJson (serializeFile j) = some j := by
  unfold parseJson serializeFile
  have hfuel : jsize j ≤ 2 * (printJson j 0 ++ ['\n']).length + 2 := by
    have := jsize_le_print j 0
    simp only [List.length_append, List.length_cons, List.length_nil]
    omega
  rw [show (String.mk (printJson j 0 ++ ['\n'])).data =
    printJson j 0 ++ ['\n'] from rfl]
  rw [parseVal_print j 0 _ ['\n'] hfuel (Or.inr (Or.inr rfl))]
  rfl

/-- C5: rewriting is idempotent at the byte level: if one run of the
per-manifest pass (parse, replace, serialize with trailing newline) turns
the file contents `s` into `t`, a second run on `t` succeeds and produces
`t` itself, byte for byte. -/
theorem rewrite_file_idempotent (canary s t : String)
    (h : rewriteFileText canary s = some t) :
    rewriteFileText canary t = some t := by
  unfold rewriteFileText at h
  obtain ⟨j, hj, hmap⟩ := Option.bind_eq_some.1 h
  obtain ⟨j2, hu, hser⟩ := Option.map_eq_some'.1 hmap
  subst hser
  unfold rewriteFileText
  rw [parseJson_serializeFile j2]
  simp only [Option.some_bind]
  rw [updateManifest_idem canary j j2 hu]
  rfl

/-- Witness for `rewrite_file_idempotent`: one concrete manifest; the first
run's output is computed by evaluation, the second run reproduces it. -/
theorem rewrite_file_idempotent_witness :
    rewriteFileText "3.0.0-canary"
        "\x7b\n  \"dependencies\": \x7b\n    \"@redwoodjs/core\": \"3.0.0-canary\",\n    \"react\": \"18\"\n  \x7d\n\x7d\n" =
      some
        "\x7b\n  \"dependencies\": \x7b\n    \"@redwoodjs/core\": \"3.0.0-canary\",\n    \"react\": \"18\"\n  \x7d\n\x7d\n" :=
  rewrite_file_idempotent "3.0.0-canary"
    "\x7b\"dependencies\": \x7b\"@redwoodjs/core\": \"1.0.0\", \"react\": \"18\"\x7d\x7d"
    "\x7b\n  \"dependencies\": \x7b\n    \"@redwoodjs/core\": \"3.0.0-canary\",\n    \"react\": \"18\"\n  \x7d\n\x7d\n"
    rfl
